import Mathlib

set_option maxHeartbeats 1000000

namespace Dasbus

/-- A primitive scalar value carried by a basic (leaf) variant.
Models the native Python payloads handled by `dasbus.typing`
(integers for the integer and handle codes, strings for `s`/`o`,
booleans for `b`). -/
inductive Scalar where
  | int (n : Int)
  | str (s : String)
  | bool (b : Bool)
deriving DecidableEq, Repr

/-- A parsed DBus type signature (the tree form of a GLib type string).
`basic c` is a single-character basic code, `var` is the self-describing
wrapper code `v`, `tup`/`arr`/`dict` are the composite shapes. -/
inductive Sig where
  | basic (c : Char)
  | var
  | tup (items : List Sig)
  | arr (elem : Sig)
  | dict (key val : Sig)
deriving Repr

mutual
/-- Boolean equality on signatures (structural). -/
def Sig.beq : Sig → Sig → Bool
  | .basic c, .basic c' => c == c'
  | .var, .var => true
  | .tup xs, .tup ys => Sig.beqList xs ys
  | .arr e, .arr e' => Sig.beq e e'
  | .dict k v, .dict k' v' => Sig.beq k k' && Sig.beq v v'
  | _, _ => false

/-- Boolean equality on lists of signatures (structural). -/
def Sig.beqList : List Sig → List Sig → Bool
  | [], [] => true
  | x :: xs, y :: ys => Sig.beq x y && Sig.beqList xs ys
  | _, _ => false
end

mutual
theorem Sig.sigBeq_iff : ∀ a b : Sig, Sig.beq a b = true ↔ a = b
  | .basic c, b => by cases b <;> simp [Sig.beq]
  | .var, b => by cases b <;> simp [Sig.beq]
  | .tup xs, b => by
      cases b with
      | tup ys => simpa [Sig.beq] using Sig.sigBeqList_iff xs ys
      | _ => simp [Sig.beq]
  | .arr e, b => by
      cases b with
      | arr e' => simpa [Sig.beq] using Sig.sigBeq_iff e e'
      | _ => simp [Sig.beq]
  | .dict k v, b => by
      cases b with
      | dict k' v' => simp [Sig.beq, Sig.sigBeq_iff k k', Sig.sigBeq_iff v v']
      | _ => simp [Sig.beq]

theorem Sig.sigBeqList_iff : ∀ xs ys : List Sig, Sig.beqList xs ys = true ↔ xs = ys
  | [], ys => by cases ys <;> simp [Sig.beqList]
  | x :: xs, ys => by
      cases ys with
      | cons y ys' => simp [Sig.beqList, Sig.sigBeq_iff x y, Sig.sigBeqList_iff xs ys']
      | nil => simp [Sig.beqList]
end

instance : DecidableEq Sig := fun a b => decidable_of_iff _ (Sig.sigBeq_iff a b)

/-- Model of a GLib `Variant` value: a type signature together with a
payload of the matching shape.  Arrays and dictionaries carry their
element/key/value signatures so that the type string of an empty
container is still determined, as in GLib. -/
inductive Variant where
  | basic (c : Char) (val : Scalar)
  | var (inner : Variant)
  | tup (children : List Variant)
  | arr (elem : Sig) (children : List Variant)
  | dict (ksig vsig : Sig) (entries : List (Variant × Variant))
deriving Repr

mutual
/-- Boolean equality on variants (structural). -/
def Variant.beq : Variant → Variant → Bool
  | .basic c s, .basic c' s' => c == c' && s == s'
  | .var i, .var i' => Variant.beq i i'
  | .tup cs, .tup cs' => Variant.beqList cs cs'
  | .arr e cs, .arr e' cs' => e == e' && Variant.beqList cs cs'
  | .dict k v es, .dict k' v' es' => k == k' && v == v' && Variant.beqEntries es es'
  | _, _ => false

/-- Boolean equality on lists of variants (structural). -/
def Variant.beqList : List Variant → List Variant → Bool
  | [], [] => true
  | x :: xs, y :: ys => Variant.beq x y && Variant.beqList xs ys
  | _, _ => false

/-- Boolean equality on lists of variant entries (structural). -/
def Variant.beqEntries : List (Variant × Variant) → List (Variant × Variant) → Bool
  | [], [] => true
  | (a, b) :: xs, (a', b') :: ys =>
      Variant.beq a a' && Variant.beq b b' && Variant.beqEntries xs ys
  | _, _ => false
end

mutual
theorem Variant.variantBeq_iff : ∀ a b : Variant, Variant.beq a b = true ↔ a = b
  | .basic c s, b => by cases b <;> simp [Variant.beq]
  | .var i, b => by
      cases b with
      | var i' => simpa [Variant.beq] using Variant.variantBeq_iff i i'
      | _ => simp [Variant.beq]
  | .tup cs, b => by
      cases b with
      | tup cs' => simpa [Variant.beq] using Variant.variantBeqList_iff cs cs'
      | _ => simp [Variant.beq]
  | .arr e cs, b => by
      cases b with
      | arr e' cs' => simp [Variant.beq, Variant.variantBeqList_iff cs cs']
      | _ => simp [Variant.beq]
  | .dict k v es, b => by
      cases b with
      | dict k' v' es' => simp [Variant.beq, Variant.variantBeqEntries_iff es es', and_assoc]
      | _ => simp [Variant.beq]

theorem Variant.variantBeqList_iff : ∀ xs ys : List Variant, Variant.beqList xs ys = true ↔ xs = ys
  | [], ys => by cases ys <;> simp [Variant.beqList]
  | x :: xs, ys => by
      cases ys with
      | cons y ys' => simp [Variant.beqList, Variant.variantBeq_iff x y, Variant.variantBeqList_iff xs ys']
      | nil => simp [Variant.beqList]

theorem Variant.variantBeqEntries_iff :
    ∀ xs ys : List (Variant × Variant), Variant.beqEntries xs ys = true ↔ xs = ys
  | [], ys => by cases ys <;> simp [Variant.beqEntries]
  | (a, b) :: xs, ys => by
      cases ys with
      | cons y ys' =>
        obtain ⟨a', b'⟩ := y
        simp [Variant.beqEntries, Variant.variantBeq_iff a a', Variant.variantBeq_iff b b',
          Variant.variantBeqEntries_iff xs ys', and_assoc]
      | nil => simp [Variant.beqEntries]
end

instance : DecidableEq Variant := fun a b => decidable_of_iff _ (Variant.variantBeq_iff a b)

/-- A native Python value, as produced by unpacking a variant or consumed
when constructing one: scalars, tuples, lists, dictionaries
(association lists in insertion order) and embedded `Variant` objects. -/
inductive Native where
  | vInt (n : Int)
  | vStr (s : String)
  | vBool (b : Bool)
  | vTuple (xs : List Native)
  | vArray (xs : List Native)
  | vDict (entries : List (Native × Native))
  | vVariant (v : Variant)
deriving Repr

mutual
/-- Boolean equality on native values (structural); models Python `==`
on the unpacked values handled by this library. -/
def Native.beq : Native → Native → Bool
  | .vInt n, .vInt n' => n == n'
  | .vStr s, .vStr s' => s == s'
  | .vBool b, .vBool b' => b == b'
  | .vTuple xs, .vTuple ys => Native.beqList xs ys
  | .vArray xs, .vArray ys => Native.beqList xs ys
  | .vDict es, .vDict es' => Native.beqEntries es es'
  | .vVariant v, .vVariant v' => v == v'
  | _, _ => false

/-- Boolean equality on lists of native values (structural). -/
def Native.beqList : List Native → List Native → Bool
  | [], [] => true
  | x :: xs, y :: ys => Native.beq x y && Native.beqList xs ys
  | _, _ => false

/-- Boolean equality on lists of native entries (structural). -/
def Native.beqEntries : List (Native × Native) → List (Native × Native) → Bool
  | [], [] => true
  | (a, b) :: xs, (a', b') :: ys =>
      Native.beq a a' && Native.beq b b' && Native.beqEntries xs ys
  | _, _ => false
end

mutual
theorem Native.nativeBeq_iff : ∀ a b : Native, Native.beq a b = true ↔ a = b
  | .vInt n, b => by cases b <;> simp [Native.beq]
  | .vStr s, b => by cases b <;> simp [Native.beq]
  | .vBool x, b => by cases b <;> simp [Native.beq]
  | .vTuple xs, b => by
      cases b with
      | vTuple ys => simpa [Native.beq] using Native.nativeBeqList_iff xs ys
      | _ => simp [Native.beq]
  | .vArray xs, b => by
      cases b with
      | vArray ys => simpa [Native.beq] using Native.nativeBeqList_iff xs ys
      | _ => simp [Native.beq]
  | .vDict es, b => by
      cases b with
      | vDict es' => simpa [Native.beq] using Native.nativeBeqEntries_iff es es'
      | _ => simp [Native.beq]
  | .vVariant v, b => by cases b <;> simp [Native.beq]

theorem Native.nativeBeqList_iff : ∀ xs ys : List Native, Native.beqList xs ys = true ↔ xs = ys
  | [], ys => by cases ys <;> simp [Native.beqList]
  | x :: xs, ys => by
      cases ys with
      | cons y ys' => simp [Native.beqList, Native.nativeBeq_iff x y, Native.nativeBeqList_iff xs ys']
      | nil => simp [Native.beqList]

theorem Native.nativeBeqEntries_iff :
    ∀ xs ys : List (Native × Native), Native.beqEntries xs ys = true ↔ xs = ys
  | [], ys => by cases ys <;> simp [Native.beqEntries]
  | (a, b) :: xs, ys => by
      cases ys with
      | cons y ys' =>
        obtain ⟨a', b'⟩ := y
        simp [Native.beqEntries, Native.nativeBeq_iff a a', Native.nativeBeq_iff b b',
          Native.nativeBeqEntries_iff xs ys', and_assoc]
      | nil => simp [Native.beqEntries]
end

instance : DecidableEq Native := fun a b => decidable_of_iff _ (Native.nativeBeq_iff a b)

/-- The single-character basic codes accepted in DBus type strings
(the value column of `DBusType._basic_type_mapping`, minus the wrapper
code `v`). -/
def basicCodes : List Char := ['b', 's', 'd', 'i', 'y', 'n', 'q', 'u', 'x', 't', 'h', 'o']

mutual
/-- The characters of the type string denoted by a signature tree
(models `GLib.Variant.get_type_string` output shapes). -/
def Sig.chars : Sig → List Char
  | .basic c => [c]
  | .var => ['v']
  | .tup items => '(' :: (Sig.charsList items ++ [')'])
  | .arr e => 'a' :: e.chars
  | .dict k v => 'a' :: '{' :: (k.chars ++ v.chars ++ ['}'])

/-- Concatenated type-string characters of a list of signatures. -/
def Sig.charsList : List Sig → List Char
  | [] => []
  | s :: ss => s.chars ++ Sig.charsList ss
end

example : (Sig.tup [.basic 'h', .basic 's', .basic 'h']).chars = "(hsh)".toList := by decide

/-- Is this signature a single basic code?  Models
`g_variant_type_is_basic` on the parsed type. -/
def Sig.isBasic : Sig → Bool
  | .basic _ => true
  | _ => false

/-- Is this signature a tuple type?  Models `GLib.VariantType.is_tuple`
for the definite types produced by this library. -/
def Sig.isTuple : Sig → Bool
  | .tup _ => true
  | _ => false

/-- Number of item types, models `GLib.VariantType.n_items` (meaningful
for tuple and dictionary-entry types; the source only queries it after
an `is_tuple` check). -/
def Sig.nItems : Sig → Nat
  | .tup items => items.length
  | .dict _ _ => 2
  | _ => 0

mutual
/-- A signature tree that denotes a valid DBus type: basic codes come
from the fixed code table and dictionary keys are basic. -/
def Sig.valid : Sig → Bool
  | .basic c => c ∈ basicCodes
  | .var => true
  | .tup items => Sig.validList items
  | .arr e => e.valid
  | .dict k v => k.isBasic && k.valid && v.valid

/-- Validity of every signature in a list. -/
def Sig.validList : List Sig → Bool
  | [] => true
  | s :: ss => s.valid && Sig.validList ss
end

mutual
/-- Fuel-indexed recursive-descent parser for DBus type strings; models
the type-string grammar that `GLib.VariantType.new` and
`GLib.Variant(type_string, value)` accept.  Parses one complete type
from the front of the character list and returns the unconsumed rest.
The fuel argument only forces termination: any fuel at least the length
of the parsed type is enough (proved below). -/
def parseOneF : Nat → List Char → Option (Sig × List Char)
  | 0, _ => none
  | _ + 1, [] => none
  | fuel + 1, c :: rest =>
    if c = '(' then
      match parseManyF fuel rest with
      | some (items, r) => some (.tup items, r)
      | none => none
    else if c = 'a' then
      match rest with
      | '{' :: rest' =>
        match parseOneF fuel rest' with
        | some (k, r1) =>
          if k.isBasic then
            match parseOneF fuel r1 with
            | some (v, '}' :: r2) => some (.dict k v, r2)
            | _ => none
          else none
        | none => none
      | _ =>
        match parseOneF fuel rest with
        | some (e, r) => some (.arr e, r)
        | none => none
    else if c = 'v' then some (.var, rest)
    else if c ∈ basicCodes then some (.basic c, rest)
    else none

/-- Parses a `)`-terminated sequence of types (the items of a tuple
type), consuming the closing parenthesis. -/
def parseManyF : Nat → List Char → Option (List Sig × List Char)
  | 0, _ => none
  | _ + 1, [] => none
  | fuel + 1, c :: rest =>
    if c = ')' then some ([], rest)
    else
      match parseOneF fuel (c :: rest) with
      | some (s, r1) =>
        match parseManyF fuel r1 with
        | some (ss, r2) => some (s :: ss, r2)
        | none => none
      | none => none
end

/-- Parse a complete DBus type string into a signature tree; fails if
the string is not exactly one valid type.  Models `VariantType.new`
and the parsing done by `GLib.Variant(type_string, value)`. -/
def parseSigStr (s : String) : Option Sig :=
  match parseOneF (s.toList.length + 1) s.toList with
  | some (sig, []) => some sig
  | _ => none

mutual
/-- The signature tree of a variant (the parsed form of
`GLib.Variant.get_type_string`). -/
def varSig : Variant → Sig
  | .basic c _ => .basic c
  | .var _ => .var
  | .tup cs => .tup (varSigList cs)
  | .arr e _ => .arr e
  | .dict k v _ => .dict k v

/-- Signatures of a list of variants. -/
def varSigList : List Variant → List Sig
  | [] => []
  | c :: cs => varSig c :: varSigList cs
end

/-- Models `GLib.Variant.get_type_string`. -/
def getTypeString (v : Variant) : String :=
  String.mk (varSig v).chars

theorem mem_basicCodes_ne {c : Char} (h : c ∈ basicCodes) :
    c ≠ '(' ∧ c ≠ 'a' ∧ c ≠ 'v' ∧ c ≠ ')' ∧ c ≠ '{' ∧ c ≠ '}' := by
  simp only [basicCodes, List.mem_cons, List.not_mem_nil, or_false] at h
  rcases h with h | h | h | h | h | h | h | h | h | h | h | h <;> subst h <;> decide

theorem Sig.chars_ne_nil : ∀ sig : Sig, sig.chars ≠ []
  | .basic c => by simp [Sig.chars]
  | .var => by simp [Sig.chars]
  | .tup items => by simp [Sig.chars]
  | .arr e => by simp [Sig.chars]
  | .dict k v => by simp [Sig.chars]

theorem Sig.one_le_chars_length (sig : Sig) : 1 ≤ sig.chars.length := by
  cases h : sig.chars with
  | nil => exact absurd h sig.chars_ne_nil
  | cons c cs => simp

theorem Sig.chars_head (sig : Sig) (h : sig.valid = true) :
    ∃ c cs, sig.chars = c :: cs ∧ c ≠ ')' ∧ c ≠ '{' ∧ c ≠ '}' := by
  cases sig with
  | basic c =>
    simp only [Sig.valid, decide_eq_true_eq] at h
    obtain ⟨_, _, _, h4, h5, h6⟩ := mem_basicCodes_ne h
    exact ⟨c, [], rfl, h4, h5, h6⟩
  | var => exact ⟨'v', [], rfl, by decide, by decide, by decide⟩
  | tup items => exact ⟨'(', _, rfl, by decide, by decide, by decide⟩
  | arr e => exact ⟨'a', _, rfl, by decide, by decide, by decide⟩
  | dict k v => exact ⟨'a', _, rfl, by decide, by decide, by decide⟩

theorem Sig.chars_tup_length (items : List Sig) :
    (Sig.tup items).chars.length = (Sig.charsList items).length + 2 := by
  simp [Sig.chars]

theorem Sig.chars_arr_length (e : Sig) :
    (Sig.arr e).chars.length = e.chars.length + 1 := by
  simp [Sig.chars]

theorem Sig.chars_dict_length (k v : Sig) :
    (Sig.dict k v).chars.length = k.chars.length + v.chars.length + 3 := by
  simp [Sig.chars]; omega

theorem Sig.charsList_cons_length (s : Sig) (ss : List Sig) :
    (Sig.charsList (s :: ss)).length = s.chars.length + (Sig.charsList ss).length := by
  simp [Sig.charsList]

mutual
theorem parseOneF_chars : ∀ (sig : Sig) (rest : List Char) (fuel : Nat),
    sig.valid = true → sig.chars.length ≤ fuel →
    parseOneF fuel (sig.chars ++ rest) = some (sig, rest)
  | .basic c, rest, fuel, hv, hf => by
    simp only [Sig.valid, decide_eq_true_eq] at hv
    obtain ⟨h1, h2, h3, _, _, _⟩ := mem_basicCodes_ne hv
    match fuel, hf with
    | f + 1, _ => simp [Sig.chars, parseOneF, h1, h2, h3, hv]
  | .var, rest, fuel, hv, hf => by
    match fuel, hf with
    | f + 1, _ => simp [Sig.chars, parseOneF]
  | .tup items, rest, fuel, hv, hf => by
    simp only [Sig.valid] at hv
    rw [Sig.chars_tup_length] at hf
    match fuel, hf with
    | f + 1, hf =>
      have hb : (Sig.charsList items).length + 1 ≤ f := by omega
      have hrec := parseManyF_chars items rest f hv hb
      simp [Sig.chars, parseOneF, List.append_assoc, hrec]
  | .arr e, rest, fuel, hv, hf => by
    simp only [Sig.valid] at hv
    rw [Sig.chars_arr_length] at hf
    match fuel, hf with
    | f + 1, hf =>
      have hb : e.chars.length ≤ f := by omega
      have hrec := parseOneF_chars e rest f hv hb
      obtain ⟨c, cs, hc, _, hcurly, _⟩ := e.chars_head hv
      rw [hc] at hrec
      simp only [List.cons_append] at hrec
      simp only [Sig.chars, List.cons_append, hc]
      simp [parseOneF, hcurly, hrec]
  | .dict k v, rest, fuel, hv, hf => by
    simp only [Sig.valid, Bool.and_eq_true] at hv
    obtain ⟨⟨hkb, hkv⟩, hvv⟩ := hv
    rw [Sig.chars_dict_length] at hf
    match fuel, hf with
    | f + 1, hf =>
      have hk1 := k.one_le_chars_length
      have hv1 := v.one_le_chars_length
      have hbk : k.chars.length ≤ f := by omega
      have hbv : v.chars.length ≤ f := by omega
      have hreck := parseOneF_chars k (v.chars ++ '}' :: rest) f hkv hbk
      have hrecv := parseOneF_chars v ('}' :: rest) f hvv hbv
      simp [Sig.chars, parseOneF, List.append_assoc, hreck, hkb, hrecv]

theorem parseManyF_chars : ∀ (sigs : List Sig) (rest : List Char) (fuel : Nat),
    Sig.validList sigs = true → (Sig.charsList sigs).length + 1 ≤ fuel →
    parseManyF fuel (Sig.charsList sigs ++ ')' :: rest) = some (sigs, rest)
  | [], rest, fuel, hv, hf => by
    match fuel, hf with
    | f + 1, _ => simp [Sig.charsList, parseManyF]
  | s :: ss, rest, fuel, hv, hf => by
    simp only [Sig.validList, Bool.and_eq_true] at hv
    obtain ⟨hs, hss⟩ := hv
    rw [Sig.charsList_cons_length] at hf
    match fuel, hf with
    | f + 1, hf =>
      have h1 := s.one_le_chars_length
      have hss1 : (Sig.charsList ss).length + 1 ≤ f := by omega
      have hs1 : s.chars.length ≤ f := by omega
      have hrec1 := parseOneF_chars s (Sig.charsList ss ++ ')' :: rest) f hs hs1
      have hrec2 := parseManyF_chars ss rest f hss hss1
      obtain ⟨c, cs, hc, hpar, _, _⟩ := s.chars_head hs
      rw [hc] at hrec1
      simp only [List.cons_append, List.append_assoc] at hrec1
      simp only [Sig.charsList, List.append_assoc, hc, List.cons_append]
      simp [parseManyF, hpar, hrec1, hrec2]
end

theorem parseSigStr_chars (sig : Sig) (h : sig.valid = true) :
    parseSigStr (String.mk sig.chars) = some sig := by
  have htl : (String.mk sig.chars).toList = sig.chars := rfl
  have := parseOneF_chars sig [] (sig.chars.length + 1) h (by omega)
  simp only [List.append_nil] at this
  simp [parseSigStr, htl, this]

/-- A Python type hint, as used by `dasbus.typing`.  The fourteen scalar
constructors correspond to the keys of `DBusType._basic_type_mapping`:
`Int` (the default integer, an alias of Python `int`) and `Int32` are
distinct entries that both map to `"i"`.  `tuple`, `list` and `dict`
correspond to `typing.Tuple[...]`, `typing.List[...]` and
`typing.Dict[...]`. -/
inductive TypeHint where
  | bool | str | double | int | byte | int16 | uint16 | int32
  | uint32 | int64 | uint64 | unixfd | objpath | variant
  | tuple (args : List TypeHint)
  | list (arg : TypeHint)
  | dict (key val : TypeHint)
deriving Repr

/-- Python `key == Variant` on type hints (identity comparison of the
`Variant` class against the key hint). -/
def isVariantHint : TypeHint → Bool
  | .variant => true
  | _ => false

/-- Errors raised by the embedded functions.  The source raises Python
`TypeError` for all of them; the spec distinguishes them by message:
`unsupportedType` is "Invalid DBus type ..." from the compiler,
`invalidValue` is "Invalid DBus value 'None'." from `get_variant`,
`typeMismatch` and `badSignature` model the errors of the GLib
`Variant(type_string, value)` constructor, and `indexError` models a
Python `IndexError` from an out-of-range fdlist lookup. -/
inductive DBusError where
  | unsupportedType
  | invalidValue
  | typeMismatch
  | badSignature
  | indexError
deriving DecidableEq, Repr

/-- `DBusType._basic_type_mapping`: DBus representation of basic types. -/
def basicTypeMapping : TypeHint → Option String
  | .bool => some "b"
  | .str => some "s"
  | .double => some "d"
  | .int => some "i"
  | .byte => some "y"
  | .int16 => some "n"
  | .uint16 => some "q"
  | .int32 => some "i"
  | .uint32 => some "u"
  | .int64 => some "x"
  | .uint64 => some "t"
  | .unixfd => some "h"
  | .objpath => some "o"
  | .variant => some "v"
  | _ => none

/-- `DBusType._is_container_type`: does the hint have one of the three
container base types (`Tuple`, `List`, `Dict`)? -/
def isContainerType : TypeHint → Bool
  | .tuple _ => true
  | .list _ => true
  | .dict _ _ => true
  | _ => false

mutual
/-- `DBusType.get_dbus_representation`: basic types via the table,
container types recursively (`(..)` for tuples, `a..` for lists,
`a{..}` for dictionaries, after `_check_if_valid_dictionary` rejects
container-typed and `Variant`-typed keys), otherwise a `TypeError`.
The source consults the basic-type table before shape-testing for a
container; the two tests are disjoint (no container hint is a table
key), so matching the three container shapes first and falling back to
the table is the same function. -/
def getDBusRepresentation : TypeHint → Except DBusError String
  | .tuple args =>
    match getDBusRepresentationList args with
    | .ok items => .ok ("(" ++ items ++ ")")
    | .error e => .error e
  | .list a =>
    match getDBusRepresentation a with
    | .ok item => .ok ("a" ++ item)
    | .error e => .error e
  | .dict k v =>
    if isContainerType k || isVariantHint k then .error .unsupportedType
    else
      match getDBusRepresentation k with
      | .ok ks =>
        match getDBusRepresentation v with
        | .ok vs => .ok ("a\x7b" ++ ks ++ vs ++ "\x7d")
        | .error e => .error e
      | .error e => .error e
  | t =>
    match basicTypeMapping t with
    | some s => .ok s
    | none => .error .unsupportedType

/-- Concatenation of the DBus representations of a list of type hints
(`"".join(items)` over the recursively compiled arguments). -/
def getDBusRepresentationList : List TypeHint → Except DBusError String
  | [] => .ok ""
  | t :: ts =>
    match getDBusRepresentation t with
    | .ok s =>
      match getDBusRepresentationList ts with
      | .ok rest => .ok (s ++ rest)
      | .error e => .error e
    | .error e => .error e
end

/-- `get_dbus_type`: return the DBus representation of a type hint. -/
def get_dbus_type (t : TypeHint) : Except DBusError String :=
  getDBusRepresentation t

/-- The native value of a basic variant payload (`variant.unpack()` on a
leaf). -/
def scalarNative : Scalar → Native
  | .int n => .vInt n
  | .str s => .vStr s
  | .bool b => .vBool b

/-- `variant.get_handle()`: the integer payload of a handle variant (the
source only calls it when the type string is exactly `h`). -/
def getHandle : Scalar → Int
  | .int n => n
  | _ => 0

/-- Construction of a basic variant from a native value, checking that
the value's kind fits the basic code (models the per-code conversion of
`GLib.Variant(type_string, value)` for basic codes; integer codes take
Python integers, `s`/`o` take strings, `b` takes booleans). -/
def mkBasic (c : Char) (v : Native) : Except DBusError Variant :=
  match v with
  | .vInt n =>
    if c ∈ ['i', 'y', 'n', 'q', 'u', 'x', 't', 'h'] then .ok (.basic c (.int n))
    else .error .typeMismatch
  | .vStr s =>
    if c = 's' || c = 'o' then .ok (.basic c (.str s))
    else .error .typeMismatch
  | .vBool b =>
    if c = 'b' then .ok (.basic c (.bool b))
    else .error .typeMismatch
  | _ => .error .typeMismatch

mutual
/-- Models the GLib `Variant(type_string, value)` constructor on a
parsed signature: a tuple signature takes a tuple of matching arity, an
array signature a homogeneous list, a dictionary signature a dictionary,
the wrapper signature `v` takes an existing `Variant` object, and basic
codes take matching scalars. -/
def mkVariant : Sig → Native → Except DBusError Variant
  | .basic c, v => mkBasic c v
  | .var, .vVariant w => .ok (.var w)
  | .var, _ => .error .typeMismatch
  | .tup sigs, .vTuple xs =>
    match mkVariantZip sigs xs with
    | .ok cs => .ok (.tup cs)
    | .error e => .error e
  | .tup _, _ => .error .typeMismatch
  | .arr e, .vArray xs =>
    match mkVariantAll e xs with
    | .ok cs => .ok (.arr e cs)
    | .error e' => .error e'
  | .arr _, _ => .error .typeMismatch
  | .dict k v, .vDict es =>
    if k.isBasic then
      match mkVariantEntries k v es with
      | .ok es' => .ok (.dict k v es')
      | .error e => .error e
    else .error .badSignature
  | .dict _ _, _ => .error .typeMismatch

/-- Children of a tuple variant: one signature per value, same arity. -/
def mkVariantZip : List Sig → List Native → Except DBusError (List Variant)
  | [], [] => .ok []
  | s :: ss, x :: xs =>
    match mkVariant s x with
    | .ok c =>
      match mkVariantZip ss xs with
      | .ok cs => .ok (c :: cs)
      | .error e => .error e
    | .error e => .error e
  | _, _ => .error .typeMismatch

/-- Children of an array variant: every value against the element
signature. -/
def mkVariantAll (e : Sig) : List Native → Except DBusError (List Variant)
  | [] => .ok []
  | x :: xs =>
    match mkVariant e x with
    | .ok c =>
      match mkVariantAll e xs with
      | .ok cs => .ok (c :: cs)
      | .error e' => .error e'
    | .error e' => .error e'

/-- Entries of a dictionary variant: keys against the key signature,
values against the value signature, in iteration order. -/
def mkVariantEntries (k v : Sig) :
    List (Native × Native) → Except DBusError (List (Variant × Variant))
  | [] => .ok []
  | (a, b) :: es =>
    match mkVariant k a with
    | .ok ka =>
      match mkVariant v b with
      | .ok vb =>
        match mkVariantEntries k v es with
        | .ok es' => .ok ((ka, vb) :: es')
        | .error e => .error e
      | .error e => .error e
    | .error e => .error e
end

/-- `GLib.Variant(type_string, value)`: parse the type string, then
construct. -/
def mkVariantStr (ts : String) (v : Native) : Except DBusError Variant :=
  match parseSigStr ts with
  | some sig => mkVariant sig v
  | none => .error .badSignature

/-- `get_variant(type_hint, value)` when the hint is a type string:
the string is used as is, `None` is rejected with
`TypeError("Invalid DBus value 'None'.")` before the `Variant`
constructor runs, and any other value is handed to the constructor.
`none`/`some` model Python `None`/non-`None`. -/
def get_variant_str (ts : String) (value : Option Native) : Except DBusError Variant :=
  match value with
  | none => .error .invalidValue
  | some v => mkVariantStr ts v

/-- `get_variant(type_hint, value)` when the hint is a type hint: the
hint is compiled with `get_dbus_type` first (so an unsupported hint
fails with its own `TypeError` before the `None` check), then handled
as in the string case. -/
def get_variant_hint (t : TypeHint) (value : Option Native) : Except DBusError Variant :=
  match get_dbus_type t with
  | .ok ts => get_variant_str ts value
  | .error e => .error e

/-- `get_variant_type(type_hint)` for a type-string argument: models
`GLib.VariantType.new(type_string)`, returning the parsed type. -/
def get_variant_type_str (ts : String) : Except DBusError Sig :=
  match parseSigStr ts with
  | some sig => .ok sig
  | none => .error .badSignature

/-- `is_tuple_of_one(type_hint)` for a type-string argument:
`variant_type.is_tuple() and variant_type.n_items() == 1`. -/
def is_tuple_of_one_str (ts : String) : Except DBusError Bool :=
  match get_variant_type_str ts with
  | .ok sig => .ok (sig.isTuple && sig.nItems == 1)
  | .error e => .error e

/-- Python `result[key] = value` on a dictionary represented as an
association list in insertion order: an existing key keeps its position
and gets the new value, a new key is appended. -/
def pyInsert (m : List (Native × Native)) (k v : Native) : List (Native × Native) :=
  if m.any (fun p => p.1 = k) then
    m.map (fun p => if p.1 = k then (p.1, v) else p)
  else m ++ [(k, v)]

mutual
/-- `VariantUnpacker.apply` / `VariantUnpacking._process_variant` with
the default handlers: dispatch on the type-string prefix (`(` tuple,
`a{` dictionary, `a` array, `v` wrapper, otherwise leaf), recursing
through wrappers and unpacking leaves.  On this model's variants the
prefix dispatch coincides with the constructor dispatch. -/
def unpackVariant : Variant → Native
  | .basic _ s => scalarNative s
  | .var inner => unpackVariant inner
  | .tup cs => .vTuple (unpackVariantList cs)
  | .arr _ cs => .vArray (unpackVariantList cs)
  | .dict _ _ es => .vDict (unpackVariantDict es [])

/-- `_handle_tuple` / `_handle_array`: children in index order. -/
def unpackVariantList : List Variant → List Native
  | [] => []
  | c :: cs => unpackVariant c :: unpackVariantList cs

/-- `_handle_dictionary`: entries in order into a Python dictionary
(`result[key] = value`, later duplicate keys overwrite earlier ones). -/
def unpackVariantDict : List (Variant × Variant) → List (Native × Native) → List (Native × Native)
  | [], acc => acc
  | (k, v) :: es, acc => unpackVariantDict es (pyInsert acc (unpackVariant k) (unpackVariant v))
end

mutual
/-- `VariantUnwrapper.apply`: same dispatch as `VariantUnpacker`, but
`_handle_variant` returns `variant.get_variant()` — the immediately
contained variant, with no further recursion. -/
def unwrapVariantFn : Variant → Native
  | .basic _ s => scalarNative s
  | .var inner => .vVariant inner
  | .tup cs => .vTuple (unwrapVariantList cs)
  | .arr _ cs => .vArray (unwrapVariantList cs)
  | .dict _ _ es => .vDict (unwrapVariantDict es [])

/-- Tuple/array children under the unwrapping strategy. -/
def unwrapVariantList : List Variant → List Native
  | [] => []
  | c :: cs => unwrapVariantFn c :: unwrapVariantList cs

/-- Dictionary entries under the unwrapping strategy. -/
def unwrapVariantDict : List (Variant × Variant) → List (Native × Native) → List (Native × Native)
  | [], acc => acc
  | (k, v) :: es, acc => unwrapVariantDict es (pyInsert acc (unwrapVariantFn k) (unwrapVariantFn v))
end

/-- `unwrap_variant(variant)`: unpack only the topmost variant. -/
def unwrap_variant (v : Variant) : Native :=
  unwrapVariantFn v

/-- A swapping function for `UnixFDSwap.apply`.  The Python swap
functions are closures over caller-owned mutable state (the fdlist);
this is modelled by threading an explicit state `σ` through every call.
The function may fail (e.g. a Python `IndexError` on an out-of-range
fdlist index). -/
def SwapFn (σ : Type) := Int → σ → Except DBusError (Int × σ)

/-- The test `'h' not in type_string and 'v' not in type_string` from
`UnixFDSwap._recreate_variant`. -/
def hvFree (s : List Char) : Bool :=
  !(s.contains 'h') && !(s.contains 'v')

mutual
/-- `UnixFDSwap._process_variant` with the `UnixFDSwap` handlers,
threading the swap function and its state.  The source's
`_handle_variant` delegates to `_recreate_variant(variant.get_variant(),
...)`; that single call site is inlined into the `var` case here (the
short-circuit test followed by process-and-reconstruct), which is the
same function and makes the recursion structural. -/
def swapProcess {σ : Type} (f : SwapFn σ) : Variant → σ → Except DBusError (Native × σ)
  | .basic c s, st =>
    if c = 'h' then
      match f (getHandle s) st with
      | .ok (n, st') => .ok (.vInt n, st')
      | .error e => .error e
    else .ok (scalarNative s, st)
  | .var inner, st =>
    if hvFree (varSig inner).chars then .ok (.vVariant inner, st)
    else
      match swapProcess f inner st with
      | .ok (nv, st') =>
        match mkVariantStr (getTypeString inner) nv with
        | .ok w => .ok (.vVariant w, st')
        | .error e => .error e
      | .error e => .error e
  | .tup cs, st =>
    match swapProcessList f cs st with
    | .ok (xs, st') => .ok (.vTuple xs, st')
    | .error e => .error e
  | .arr _ cs, st =>
    match swapProcessList f cs st with
    | .ok (xs, st') => .ok (.vArray xs, st')
    | .error e => .error e
  | .dict _ _ es, st =>
    match swapProcessDict f es [] st with
    | .ok (m, st') => .ok (.vDict m, st')
    | .error e => .error e

/-- Tuple/array children under the swapping strategy, left to right. -/
def swapProcessList {σ : Type} (f : SwapFn σ) :
    List Variant → σ → Except DBusError (List Native × σ)
  | [], st => .ok ([], st)
  | c :: cs, st =>
    match swapProcess f c st with
    | .ok (x, st1) =>
      match swapProcessList f cs st1 with
      | .ok (xs, st2) => .ok (x :: xs, st2)
      | .error e => .error e
    | .error e => .error e

/-- Dictionary entries under the swapping strategy: per entry the key is
processed before the value, and entries accumulated with Python
dictionary insertion semantics. -/
def swapProcessDict {σ : Type} (f : SwapFn σ) :
    List (Variant × Variant) → List (Native × Native) → σ →
    Except DBusError (List (Native × Native) × σ)
  | [], acc, st => .ok (acc, st)
  | (k, v) :: es, acc, st =>
    match swapProcess f k st with
    | .ok (kn, st1) =>
      match swapProcess f v st1 with
      | .ok (vn, st2) => swapProcessDict f es (pyInsert acc kn vn) st2
      | .error e => .error e
    | .error e => .error e
end

/-- `UnixFDSwap._recreate_variant`: return the variant unchanged when
its type string contains neither `h` nor `v`; otherwise compute the new
value with `_process_variant` and rebuild with
`get_variant(type_string, value)` under the original type string. -/
def swapRecreate {σ : Type} (f : SwapFn σ) (v : Variant) (st : σ) :
    Except DBusError (Variant × σ) :=
  if hvFree (varSig v).chars then .ok (v, st)
  else
    match swapProcess f v st with
    | .ok (nv, st') =>
      match mkVariantStr (getTypeString v) nv with
      | .ok w => .ok (w, st')
      | .error e => .error e
    | .error e => .error e

/-- `UnixFDSwap.apply(variant, swap)`. -/
def UnixFDSwap_apply {σ : Type} (f : SwapFn σ) (v : Variant) (st : σ) :
    Except DBusError (Variant × σ) :=
  swapRecreate f v st

/-- The `get_index` closure of
`variant_replace_handles_with_fdlist_indices`: append the handle to the
indices list and return `len(indices) - 1`, i.e. the position at which
it was appended. -/
def getIndexSwap : SwapFn (List Int) :=
  fun fd st => .ok ((st.length : Int), st ++ [fd])

/-- `variant_replace_handles_with_fdlist_indices(v, fdlist=None)`:
start from the passed fdlist (a fresh empty list when `fdlist` is
`None`; `fdlist or []` also yields an empty list for an empty
argument, the same value), swap every handle for its index, and return
the new variant together with the indices list. -/
def variant_replace_handles_with_fdlist_indices (v : Variant)
    (fdlist : Option (List Int)) : Except DBusError (Variant × List Int) :=
  let indices := match fdlist with
    | none => []
    | some l => l
  UnixFDSwap_apply getIndexSwap v indices

/-- Python `indices[fd_index]` on a list: negative indices address from
the end, out-of-range indices raise `IndexError`. -/
def pyListGet (l : List Int) (i : Int) : Except DBusError Int :=
  let j := if i < 0 then (l.length : Int) + i else i
  if 0 ≤ j then
    match l[j.toNat]? with
    | some x => .ok x
    | none => .error .indexError
  else .error .indexError

/-- The `get_handler` closure of
`variant_replace_fdlist_indices_with_handles`: look the index up in the
received fdlist. -/
def getHandlerSwap (fdlist : List Int) : SwapFn Unit :=
  fun i _ =>
    match pyListGet fdlist i with
    | .ok x => .ok (x, ())
    | .error e => .error e

/-- `variant_replace_fdlist_indices_with_handles(v, fdlist)`. -/
def variant_replace_fdlist_indices_with_handles (v : Variant)
    (fdlist : List Int) : Except DBusError Variant :=
  match UnixFDSwap_apply (getHandlerSwap fdlist) v () with
  | .ok (w, _) => .ok w
  | .error e => .error e

/-- Filling a Python dictionary from a list of key/value pairs in
order, starting from `acc`. -/
def pyFoldInsert (acc : List (Native × Native)) : List (Native × Native) → List (Native × Native)
  | [] => acc
  | (k, v) :: es => pyFoldInsert (pyInsert acc k v) es

/-- Pairwise-distinct keys of a native association list (the invariant
of every list that represents an actual Python dictionary). -/
def distinctKeysN : List (Native × Native) → Bool
  | [] => true
  | (a, _) :: es => !(es.any (fun p => p.1 = a)) && distinctKeysN es

theorem pyInsert_of_not_mem (acc : List (Native × Native)) (k v : Native)
    (h : acc.any (fun p => p.1 = k) = false) :
    pyInsert acc k v = acc ++ [(k, v)] := by
  simp [pyInsert, h]

theorem pyFoldInsert_of_distinct :
    ∀ (es acc : List (Native × Native)), distinctKeysN es = true →
    (∀ p ∈ es, acc.any (fun q => q.1 = p.1) = false) →
    pyFoldInsert acc es = acc ++ es
  | [], acc, _, _ => by simp [pyFoldInsert]
  | (k, v) :: es, acc, hd, hacc => by
    simp only [distinctKeysN, Bool.and_eq_true, Bool.not_eq_true'] at hd
    obtain ⟨hk, hes⟩ := hd
    have hprem : ∀ p ∈ es, ((acc ++ [(k, v)]).any (fun q => q.1 = p.1)) = false := by
      intro p hp
      simp only [List.any_append, Bool.or_eq_false_iff]
      refine ⟨hacc p (List.mem_cons_of_mem _ hp), ?_⟩
      simp only [List.any_cons, List.any_nil, Bool.or_false]
      simp only [List.any_eq_false, decide_eq_false_iff_not] at hk
      simp only [decide_eq_false_iff_not]
      intro hcon
      exact hk p hp (by simp [hcon])
    rw [pyFoldInsert, pyInsert_of_not_mem acc k v (hacc (k, v) (List.mem_cons_self _ _)),
        pyFoldInsert_of_distinct es (acc ++ [(k, v)]) hes hprem]
    simp

mutual
/-- A native value that contains no embedded `Variant` object (a fully
native tuple/array/dictionary/scalar tree). -/
def variantFreeN : Native → Bool
  | .vInt _ => true
  | .vStr _ => true
  | .vBool _ => true
  | .vTuple xs => variantFreeNList xs
  | .vArray xs => variantFreeNList xs
  | .vDict es => variantFreeNEntries es
  | .vVariant _ => false

/-- `variantFreeN` over a list. -/
def variantFreeNList : List Native → Bool
  | [] => true
  | x :: xs => variantFreeN x && variantFreeNList xs

/-- `variantFreeN` over entry pairs. -/
def variantFreeNEntries : List (Native × Native) → Bool
  | [] => true
  | (a, b) :: es => variantFreeN a && variantFreeN b && variantFreeNEntries es
end

mutual
/-- Every dictionary inside a native value has pairwise-distinct keys
(true of every value built from actual Python dictionaries). -/
def nodupDictsN : Native → Bool
  | .vInt _ => true
  | .vStr _ => true
  | .vBool _ => true
  | .vTuple xs => nodupDictsNList xs
  | .vArray xs => nodupDictsNList xs
  | .vDict es => distinctKeysN es && nodupDictsNEntries es
  | .vVariant _ => true

/-- `nodupDictsN` over a list. -/
def nodupDictsNList : List Native → Bool
  | [] => true
  | x :: xs => nodupDictsN x && nodupDictsNList xs

/-- `nodupDictsN` over entry pairs. -/
def nodupDictsNEntries : List (Native × Native) → Bool
  | [] => true
  | (a, b) :: es => nodupDictsN a && nodupDictsN b && nodupDictsNEntries es
end

/-- The native key/value pairs obtained by unpacking each entry of a
dictionary variant, in entry order (before Python-dictionary
accumulation). -/
def unpackPairs : List (Variant × Variant) → List (Native × Native)
  | [] => []
  | (k, v) :: es => (unpackVariant k, unpackVariant v) :: unpackPairs es

theorem unpackVariantDict_eq_fold :
    ∀ (es : List (Variant × Variant)) (acc : List (Native × Native)),
    unpackVariantDict es acc = pyFoldInsert acc (unpackPairs es)
  | [], acc => rfl
  | (k, v) :: es, acc => by
    rw [unpackVariantDict, unpackPairs, pyFoldInsert, unpackVariantDict_eq_fold es]

mutual
theorem unpack_mkVariant : ∀ (sig : Sig) (v : Native) (w : Variant),
    mkVariant sig v = .ok w → variantFreeN v = true → nodupDictsN v = true →
    unpackVariant w = v
  | .basic c, v, w, h, hf, hd => by
    cases v with
    | vInt n =>
      simp only [mkVariant, mkBasic] at h
      split at h
      · cases h; simp [unpackVariant, scalarNative]
      · exact Except.noConfusion h
    | vStr s =>
      simp only [mkVariant, mkBasic] at h
      split at h
      · cases h; simp [unpackVariant, scalarNative]
      · exact Except.noConfusion h
    | vBool b =>
      simp only [mkVariant, mkBasic] at h
      split at h
      · cases h; simp [unpackVariant, scalarNative]
      · exact Except.noConfusion h
    | vTuple xs => simp [mkVariant, mkBasic] at h
    | vArray xs => simp [mkVariant, mkBasic] at h
    | vDict es => simp [mkVariant, mkBasic] at h
    | vVariant v' => simp [mkVariant, mkBasic] at h
  | .var, v, w, h, hf, hd => by
    cases v with
    | vVariant v' => simp [variantFreeN] at hf
    | _ => simp [mkVariant] at h
  | .tup sigs, v, w, h, hf, hd => by
    cases v with
    | vTuple xs =>
      simp only [mkVariant] at h
      cases hz : mkVariantZip sigs xs with
      | ok cs =>
        rw [hz] at h
        cases h
        simp only [variantFreeN] at hf
        simp only [nodupDictsN] at hd
        simp [unpackVariant, unpack_mkVariantZip sigs xs cs hz hf hd]
      | error e => rw [hz] at h; exact Except.noConfusion h
    | _ => simp [mkVariant] at h
  | .arr e, v, w, h, hf, hd => by
    cases v with
    | vArray xs =>
      simp only [mkVariant] at h
      cases ha : mkVariantAll e xs with
      | ok cs =>
        rw [ha] at h
        cases h
        simp only [variantFreeN] at hf
        simp only [nodupDictsN] at hd
        simp [unpackVariant, unpack_mkVariantAll e xs cs ha hf hd]
      | error e' => rw [ha] at h; exact Except.noConfusion h
    | _ => simp [mkVariant] at h
  | .dict ks vs, v, w, h, hf, hd => by
    cases v with
    | vDict es =>
      simp only [mkVariant] at h
      split at h
      · cases he : mkVariantEntries ks vs es with
        | ok es' =>
          rw [he] at h
          cases h
          simp only [variantFreeN] at hf
          simp only [nodupDictsN, Bool.and_eq_true] at hd
          obtain ⟨hdk, hde⟩ := hd
          have hpairs := unpack_mkVariantEntries ks vs es es' he hf hde
          simp only [unpackVariant]
          rw [unpackVariantDict_eq_fold, hpairs,
            pyFoldInsert_of_distinct es [] hdk (by intro p _; simp)]
          simp
        | error e' => rw [he] at h; exact Except.noConfusion h
      · exact Except.noConfusion h
    | _ => simp [mkVariant] at h

theorem unpack_mkVariantZip : ∀ (sigs : List Sig) (xs : List Native) (cs : List Variant),
    mkVariantZip sigs xs = .ok cs → variantFreeNList xs = true →
    nodupDictsNList xs = true → unpackVariantList cs = xs
  | [], [], cs, h, _, _ => by
    simp only [mkVariantZip] at h
    cases h
    rfl
  | [], x :: xs, cs, h, _, _ => by simp [mkVariantZip] at h
  | s :: ss, [], cs, h, _, _ => by simp [mkVariantZip] at h
  | s :: ss, x :: xs, cs, h, hf, hd => by
    simp only [mkVariantZip] at h
    cases hc : mkVariant s x with
    | ok c =>
      rw [hc] at h
      cases hcs : mkVariantZip ss xs with
      | ok cs' =>
        rw [hcs] at h
        cases h
        simp only [variantFreeNList, Bool.and_eq_true] at hf
        simp only [nodupDictsNList, Bool.and_eq_true] at hd
        simp [unpackVariantList, unpack_mkVariant s x c hc hf.1 hd.1,
          unpack_mkVariantZip ss xs cs' hcs hf.2 hd.2]
      | error e => rw [hcs] at h; exact Except.noConfusion h
    | error e => rw [hc] at h; exact Except.noConfusion h

theorem unpack_mkVariantAll : ∀ (e : Sig) (xs : List Native) (cs : List Variant),
    mkVariantAll e xs = .ok cs → variantFreeNList xs = true →
    nodupDictsNList xs = true → unpackVariantList cs = xs
  | e, [], cs, h, _, _ => by
    simp only [mkVariantAll] at h
    cases h
    rfl
  | e, x :: xs, cs, h, hf, hd => by
    simp only [mkVariantAll] at h
    cases hc : mkVariant e x with
    | ok c =>
      rw [hc] at h
      cases hcs : mkVariantAll e xs with
      | ok cs' =>
        rw [hcs] at h
        cases h
        simp only [variantFreeNList, Bool.and_eq_true] at hf
        simp only [nodupDictsNList, Bool.and_eq_true] at hd
        simp [unpackVariantList, unpack_mkVariant e x c hc hf.1 hd.1,
          unpack_mkVariantAll e xs cs' hcs hf.2 hd.2]
      | error e' => rw [hcs] at h; exact Except.noConfusion h
    | error e' => rw [hc] at h; exact Except.noConfusion h

theorem unpack_mkVariantEntries : ∀ (k v : Sig) (es : List (Native × Native))
    (es' : List (Variant × Variant)),
    mkVariantEntries k v es = .ok es' → variantFreeNEntries es = true →
    nodupDictsNEntries es = true → unpackPairs es' = es
  | k, v, [], es', h, _, _ => by
    simp only [mkVariantEntries] at h
    cases h
    rfl
  | k, v, (a, b) :: es, es', h, hf, hd => by
    simp only [mkVariantEntries] at h
    cases hka : mkVariant k a with
    | ok ka =>
      rw [hka] at h
      cases hvb : mkVariant v b with
      | ok vb =>
        rw [hvb] at h
        cases hes : mkVariantEntries k v es with
        | ok tail =>
          rw [hes] at h
          cases h
          simp only [variantFreeNEntries, Bool.and_eq_true] at hf
          obtain ⟨⟨hf1, hf2⟩, hf3⟩ := hf
          simp only [nodupDictsNEntries, Bool.and_eq_true] at hd
          obtain ⟨⟨hd1, hd2⟩, hd3⟩ := hd
          simp [unpackPairs, unpack_mkVariant k a ka hka hf1 hd1,
            unpack_mkVariant v b vb hvb hf2 hd2,
            unpack_mkVariantEntries k v es tail hes hf3 hd3]
        | error e => rw [hes] at h; exact Except.noConfusion h
      | error e => rw [hvb] at h; exact Except.noConfusion h
    | error e => rw [hka] at h; exact Except.noConfusion h
end

mutual
/-- Does a native value match a signature, in the sense that the GLib
`Variant` constructor accepts it?  Stated independently of `mkVariant`
(which emits the variant) so that acceptance can be characterised. -/
def matchesSig : Sig → Native → Bool
  | .basic c, .vInt _ => c ∈ ['i', 'y', 'n', 'q', 'u', 'x', 't', 'h']
  | .basic c, .vStr _ => c = 's' || c = 'o'
  | .basic c, .vBool _ => c = 'b'
  | .var, .vVariant _ => true
  | .tup sigs, .vTuple xs => matchesSigZip sigs xs
  | .arr e, .vArray xs => matchesSigAll e xs
  | .dict k v, .vDict es => k.isBasic && matchesSigEntries k v es
  | _, _ => false

/-- Tuple arity and element matching. -/
def matchesSigZip : List Sig → List Native → Bool
  | [], [] => true
  | s :: ss, x :: xs => matchesSig s x && matchesSigZip ss xs
  | _, _ => false

/-- Array element matching. -/
def matchesSigAll (e : Sig) : List Native → Bool
  | [] => true
  | x :: xs => matchesSig e x && matchesSigAll e xs

/-- Dictionary entry matching. -/
def matchesSigEntries (k v : Sig) : List (Native × Native) → Bool
  | [] => true
  | (a, b) :: es => matchesSig k a && matchesSig v b && matchesSigEntries k v es
end

mutual
theorem mkVariant_isOk : ∀ (sig : Sig) (v : Native),
    matchesSig sig v = true → (mkVariant sig v).isOk = true
  | .basic c, v, h => by
    cases v <;> simp_all [matchesSig, mkVariant, mkBasic, Except.isOk, Except.toBool]
  | .var, v, h => by
    cases v <;> simp_all [matchesSig, mkVariant, Except.isOk, Except.toBool]
  | .tup sigs, v, h => by
    cases v with
    | vTuple xs =>
      simp only [matchesSig] at h
      have := mkVariant_isOkZip sigs xs h
      cases hz : mkVariantZip sigs xs with
      | ok cs => simp [mkVariant, hz, Except.isOk, Except.toBool]
      | error e => rw [hz] at this; simp [Except.isOk, Except.toBool] at this
    | _ => simp [matchesSig] at h
  | .arr e, v, h => by
    cases v with
    | vArray xs =>
      simp only [matchesSig] at h
      have := mkVariant_isOkAll e xs h
      cases ha : mkVariantAll e xs with
      | ok cs => simp [mkVariant, ha, Except.isOk, Except.toBool]
      | error e' => rw [ha] at this; simp [Except.isOk, Except.toBool] at this
    | _ => simp [matchesSig] at h
  | .dict ks vs, v, h => by
    cases v with
    | vDict es =>
      simp only [matchesSig, Bool.and_eq_true] at h
      have := mkVariant_isOkEntries ks vs es h.2
      cases he : mkVariantEntries ks vs es with
      | ok es' => simp [mkVariant, he, h.1, Except.isOk, Except.toBool]
      | error e' => rw [he] at this; simp [Except.isOk, Except.toBool] at this
    | _ => simp [matchesSig] at h

theorem mkVariant_isOkZip : ∀ (sigs : List Sig) (xs : List Native),
    matchesSigZip sigs xs = true → (mkVariantZip sigs xs).isOk = true
  | [], [], _ => by simp [mkVariantZip, Except.isOk, Except.toBool]
  | [], x :: xs, h => by simp [matchesSigZip] at h
  | s :: ss, [], h => by simp [matchesSigZip] at h
  | s :: ss, x :: xs, h => by
    simp only [matchesSigZip, Bool.and_eq_true] at h
    have h1 := mkVariant_isOk s x h.1
    have h2 := mkVariant_isOkZip ss xs h.2
    cases hc : mkVariant s x with
    | ok c =>
      cases hcs : mkVariantZip ss xs with
      | ok cs => simp [mkVariantZip, hc, hcs, Except.isOk, Except.toBool]
      | error e => rw [hcs] at h2; simp [Except.isOk, Except.toBool] at h2
    | error e => rw [hc] at h1; simp [Except.isOk, Except.toBool] at h1

theorem mkVariant_isOkAll : ∀ (e : Sig) (xs : List Native),
    matchesSigAll e xs = true → (mkVariantAll e xs).isOk = true
  | e, [], _ => by simp [mkVariantAll, Except.isOk, Except.toBool]
  | e, x :: xs, h => by
    simp only [matchesSigAll, Bool.and_eq_true] at h
    have h1 := mkVariant_isOk e x h.1
    have h2 := mkVariant_isOkAll e xs h.2
    cases hc : mkVariant e x with
    | ok c =>
      cases hcs : mkVariantAll e xs with
      | ok cs => simp [mkVariantAll, hc, hcs, Except.isOk, Except.toBool]
      | error e' => rw [hcs] at h2; simp [Except.isOk, Except.toBool] at h2
    | error e' => rw [hc] at h1; simp [Except.isOk, Except.toBool] at h1

theorem mkVariant_isOkEntries : ∀ (k v : Sig) (es : List (Native × Native)),
    matchesSigEntries k v es = true → (mkVariantEntries k v es).isOk = true
  | k, v, [], _ => by simp [mkVariantEntries, Except.isOk, Except.toBool]
  | k, v, (a, b) :: es, h => by
    simp only [matchesSigEntries, Bool.and_eq_true] at h
    obtain ⟨⟨h1, h2⟩, h3⟩ := h
    have g1 := mkVariant_isOk k a h1
    have g2 := mkVariant_isOk v b h2
    have g3 := mkVariant_isOkEntries k v es h3
    cases hka : mkVariant k a with
    | ok ka =>
      cases hvb : mkVariant v b with
      | ok vb =>
        cases hes : mkVariantEntries k v es with
        | ok tail => simp [mkVariantEntries, hka, hvb, hes, Except.isOk, Except.toBool]
        | error e => rw [hes] at g3; simp [Except.isOk, Except.toBool] at g3
      | error e => rw [hvb] at g2; simp [Except.isOk, Except.toBool] at g2
    | error e => rw [hka] at g1; simp [Except.isOk, Except.toBool] at g1
end

/-- Does a scalar payload fit a basic code (the acceptance condition of
`mkBasic`)? -/
def scalarMatches : Char → Scalar → Bool
  | c, .int _ => c ∈ ['i', 'y', 'n', 'q', 'u', 'x', 't', 'h']
  | c, .str _ => c = 's' || c = 'o'
  | c, .bool _ => c = 'b'

/-- Pairwise-distinct keys of a variant dictionary's entry list. -/
def distinctKeys : List (Variant × Variant) → Bool
  | [] => true
  | (a, _) :: es => !(es.any (fun p => p.1 = a)) && distinctKeys es

mutual
/-- Well-formedness of a modelled variant: exactly the invariants GLib
guarantees for every value it hands out — leaf codes come from the
basic-code table with a payload of the right kind, array children all
have the element signature, dictionary keys are basic, entries carry
the declared key/value signatures, and (because wire dictionaries are
built from Python dictionaries here) entry keys are distinct. -/
def wfVariant : Variant → Bool
  | .basic c s => (c ∈ basicCodes) && scalarMatches c s
  | .var inner => wfVariant inner
  | .tup cs => wfVariantList cs
  | .arr e cs => e.valid && wfVariantList cs && sigsMatch e cs
  | .dict k v es => k.isBasic && k.valid && v.valid && wfEntries k v es && distinctKeys es

/-- `wfVariant` over a list of children. -/
def wfVariantList : List Variant → Bool
  | [] => true
  | c :: cs => wfVariant c && wfVariantList cs

/-- Entries are well formed and carry the declared signatures. -/
def wfEntries (k v : Sig) : List (Variant × Variant) → Bool
  | [] => true
  | (a, b) :: es =>
      wfVariant a && wfVariant b && (varSig a = k) && (varSig b = v) && wfEntries k v es

/-- All children have the given signature. -/
def sigsMatch (e : Sig) : List Variant → Bool
  | [] => true
  | c :: cs => (varSig c = e) && sigsMatch e cs
end

mutual
/-- The handle values contained in a variant, in depth-first traversal
encounter order (tuple/array children left to right, dictionary entries
key before value, wrappers transparent). -/
def handlesDFS : Variant → List Int
  | .basic c s => if c = 'h' then [getHandle s] else []
  | .var inner => handlesDFS inner
  | .tup cs => handlesDFSList cs
  | .arr _ cs => handlesDFSList cs
  | .dict _ _ es => handlesDFSEntries es

/-- Handles of a list of variants, in order. -/
def handlesDFSList : List Variant → List Int
  | [] => []
  | c :: cs => handlesDFS c ++ handlesDFSList cs

/-- Handles of dictionary entries, key before value, in entry order. -/
def handlesDFSEntries : List (Variant × Variant) → List Int
  | [] => []
  | (k, v) :: es => handlesDFS k ++ handlesDFS v ++ handlesDFSEntries es
end

mutual
/-- The reference meaning of the outbound handle substitution: replace
the i-th handle leaf (in depth-first encounter order) by the integer
`n + i`, leaving everything else unchanged. -/
def renumber : Variant → Nat → Variant
  | .basic c s, n => if c = 'h' then .basic 'h' (.int (n : Int)) else .basic c s
  | .var inner, n => .var (renumber inner n)
  | .tup cs, n => .tup (renumberList cs n)
  | .arr e cs, n => .arr e (renumberList cs n)
  | .dict k v es, n => .dict k v (renumberEntries es n)

/-- Renumbering of a list of children, threading the counter by the
number of handles already consumed. -/
def renumberList : List Variant → Nat → List Variant
  | [], _ => []
  | c :: cs, n => renumber c n :: renumberList cs (n + (handlesDFS c).length)

/-- Renumbering of dictionary entries, key before value. -/
def renumberEntries : List (Variant × Variant) → Nat → List (Variant × Variant)
  | [], _ => []
  | (k, v) :: es, n =>
      (renumber k n, renumber v (n + (handlesDFS k).length)) ::
        renumberEntries es (n + (handlesDFS k).length + (handlesDFS v).length)
end

mutual
/-- The native value produced by `UnixFDSwap._process_variant` under the
outbound `get_index` swap when the state already holds `n` handles:
handle leaves become `vInt (n + i)`, wrappers become the recreated inner
variant, dictionaries are accumulated with Python insertion semantics. -/
def swappedNative : Variant → Nat → Native
  | .basic c s, n => if c = 'h' then .vInt (n : Int) else scalarNative s
  | .var inner, n => .vVariant (renumber inner n)
  | .tup cs, n => .vTuple (swappedNativeList cs n)
  | .arr _ cs, n => .vArray (swappedNativeList cs n)
  | .dict _ _ es, n => .vDict (pyFoldInsert [] (swappedPairs es n))

/-- Swapped natives of a list of children. -/
def swappedNativeList : List Variant → Nat → List Native
  | [], _ => []
  | c :: cs, n => swappedNative c n :: swappedNativeList cs (n + (handlesDFS c).length)

/-- Swapped native pairs of dictionary entries, before accumulation. -/
def swappedPairs : List (Variant × Variant) → Nat → List (Native × Native)
  | [], _ => []
  | (k, v) :: es, n =>
      (swappedNative k n, swappedNative v (n + (handlesDFS k).length)) ::
        swappedPairs es (n + (handlesDFS k).length + (handlesDFS v).length)
end

theorem hvFree_iff (l : List Char) : hvFree l = true ↔ 'h' ∉ l ∧ 'v' ∉ l := by
  simp [hvFree]

theorem mem_varSigList {c : Variant} : ∀ {cs : List Variant}, c ∈ cs → varSig c ∈ varSigList cs
  | _ :: cs, h => by
    rcases List.mem_cons.mp h with h | h
    · subst h; simp [varSigList]
    · simp only [varSigList, List.mem_cons]
      exact Or.inr (mem_varSigList h)

theorem mem_charsList_of_mem {x : Char} {s : Sig} :
    ∀ {sigs : List Sig}, s ∈ sigs → x ∈ s.chars → x ∈ Sig.charsList sigs
  | _ :: sigs, h, hx => by
    rcases List.mem_cons.mp h with h | h
    · subst h; simp only [Sig.charsList, List.mem_append]; exact Or.inl hx
    · simp only [Sig.charsList, List.mem_append]
      exact Or.inr (mem_charsList_of_mem h hx)

theorem scalarNative_inj {s t : Scalar} (h : scalarNative s = scalarNative t) : s = t := by
  cases s <;> cases t <;> simp_all [scalarNative]

theorem sigsMatch_mem : ∀ {e : Sig} {cs : List Variant} {c : Variant},
    sigsMatch e cs = true → c ∈ cs → varSig c = e
  | _, d :: ds, c, hsm, hc => by
    simp only [sigsMatch, Bool.and_eq_true, decide_eq_true_eq] at hsm
    rcases List.mem_cons.mp hc with h | h
    · subst h; exact hsm.1
    · exact sigsMatch_mem hsm.2 h

mutual
theorem hvFree_handles : ∀ (v : Variant), wfVariant v = true →
    'h' ∉ (varSig v).chars → 'v' ∉ (varSig v).chars →
    handlesDFS v = [] ∧ ∀ n, renumber v n = v
  | .basic c s, _, hh, _ => by
    simp only [varSig, Sig.chars, List.mem_singleton] at hh
    have hc : c ≠ 'h' := fun hcon => hh (by simp [hcon])
    exact ⟨by simp [handlesDFS, hc], fun n => by simp [renumber, hc]⟩
  | .var inner, _, _, hv => by
    simp [varSig, Sig.chars] at hv
  | .tup cs, hw, hh, hv => by
    simp only [varSig, Sig.chars] at hh hv
    simp only [wfVariant] at hw
    have hchild : ∀ c ∈ cs, 'h' ∉ (varSig c).chars ∧ 'v' ∉ (varSig c).chars := by
      intro c hc
      constructor
      · intro hx
        exact hh (by
          simp only [List.mem_cons, List.mem_append]
          exact Or.inr (Or.inl (mem_charsList_of_mem (mem_varSigList hc) hx)))
      · intro hx
        exact hv (by
          simp only [List.mem_cons, List.mem_append]
          exact Or.inr (Or.inl (mem_charsList_of_mem (mem_varSigList hc) hx)))
    obtain ⟨h1, h2⟩ := hvFree_handlesList cs hw hchild
    exact ⟨by simp [handlesDFS, h1], fun n => by simp [renumber, h2]⟩
  | .arr e cs, hw, hh, hv => by
    simp only [varSig, Sig.chars, List.mem_cons] at hh hv
    simp only [wfVariant, Bool.and_eq_true] at hw
    obtain ⟨⟨he, hwl⟩, hsm⟩ := hw
    have hsigs : ∀ c ∈ cs, varSig c = e := fun c hc => sigsMatch_mem hsm hc
    have hchild : ∀ c ∈ cs, 'h' ∉ (varSig c).chars ∧ 'v' ∉ (varSig c).chars := by
      intro c hc
      rw [hsigs c hc]
      exact ⟨fun hx => hh (Or.inr hx), fun hx => hv (Or.inr hx)⟩
    obtain ⟨h1, h2⟩ := hvFree_handlesList cs hwl hchild
    exact ⟨by simp [handlesDFS, h1], fun n => by simp [renumber, h2]⟩
  | .dict k v es, hw, hh, hv => by
    simp only [varSig, Sig.chars, List.mem_cons, List.mem_append,
      List.mem_singleton] at hh hv
    simp only [wfVariant, Bool.and_eq_true] at hw
    obtain ⟨⟨⟨⟨_, _⟩, _⟩, hwe⟩, _⟩ := hw
    have hhk : 'h' ∉ k.chars := fun hx => hh (Or.inr (Or.inr (Or.inl (Or.inl hx))))
    have hhv : 'h' ∉ v.chars := fun hx => hh (Or.inr (Or.inr (Or.inl (Or.inr hx))))
    have hvk : 'v' ∉ k.chars := fun hx => hv (Or.inr (Or.inr (Or.inl (Or.inl hx))))
    have hvv : 'v' ∉ v.chars := fun hx => hv (Or.inr (Or.inr (Or.inl (Or.inr hx))))
    obtain ⟨h1, h2⟩ := hvFree_handlesEntries k v es hwe hhk hhv hvk hvv
    exact ⟨by simp [handlesDFS, h1], fun n => by simp [renumber, h2]⟩

theorem hvFree_handlesList : ∀ (cs : List Variant), wfVariantList cs = true →
    (∀ c ∈ cs, 'h' ∉ (varSig c).chars ∧ 'v' ∉ (varSig c).chars) →
    handlesDFSList cs = [] ∧ ∀ n, renumberList cs n = cs
  | [], _, _ => ⟨rfl, fun _ => rfl⟩
  | c :: cs, hw, hchild => by
    simp only [wfVariantList, Bool.and_eq_true] at hw
    obtain ⟨hc1, hc2⟩ := hvFree_handles c hw.1 (hchild c (by simp)).1 (hchild c (by simp)).2
    obtain ⟨hl1, hl2⟩ := hvFree_handlesList cs hw.2 (fun d hd => hchild d (by simp [hd]))
    refine ⟨by simp [handlesDFSList, hc1, hl1], fun n => ?_⟩
    simp [renumberList, hc1, hc2, hl2]

theorem hvFree_handlesEntries : ∀ (k v : Sig) (es : List (Variant × Variant)),
    wfEntries k v es = true →
    'h' ∉ k.chars → 'h' ∉ v.chars → 'v' ∉ k.chars → 'v' ∉ v.chars →
    handlesDFSEntries es = [] ∧ ∀ n, renumberEntries es n = es
  | _, _, [], _, _, _, _, _ => ⟨rfl, fun _ => rfl⟩
  | k, v, (a, b) :: es, hw, hhk, hhv, hvk, hvv => by
    simp only [wfEntries, Bool.and_eq_true, decide_eq_true_eq] at hw
    obtain ⟨⟨⟨⟨hwa, hwb⟩, hsa⟩, hsb⟩, hwes⟩ := hw
    obtain ⟨ha1, ha2⟩ := hvFree_handles a hwa (hsa ▸ hhk) (hsa ▸ hvk)
    obtain ⟨hb1, hb2⟩ := hvFree_handles b hwb (hsb ▸ hhv) (hsb ▸ hvv)
    obtain ⟨he1, he2⟩ := hvFree_handlesEntries k v es hwes hhk hhv hvk hvv
    refine ⟨by simp [handlesDFSEntries, ha1, hb1, he1], fun n => ?_⟩
    simp [renumberEntries, ha1, hb1, ha2, hb2, he2]
end

mutual
theorem wf_varSig_valid : ∀ (v : Variant), wfVariant v = true → (varSig v).valid = true
  | .basic c s, hw => by
    simp only [wfVariant, Bool.and_eq_true] at hw
    simpa [varSig, Sig.valid] using hw.1
  | .var inner, _ => by simp [varSig, Sig.valid]
  | .tup cs, hw => by
    simp only [wfVariant] at hw
    simpa [varSig, Sig.valid] using wf_varSig_validList cs hw
  | .arr e cs, hw => by
    simp only [wfVariant, Bool.and_eq_true] at hw
    simpa [varSig, Sig.valid] using hw.1.1
  | .dict k v es, hw => by
    simp only [wfVariant, Bool.and_eq_true] at hw
    obtain ⟨⟨⟨⟨hkb, hkv⟩, hvv⟩, _⟩, _⟩ := hw
    simp [varSig, Sig.valid, hkb, hkv, hvv]

theorem wf_varSig_validList : ∀ (cs : List Variant),
    wfVariantList cs = true → Sig.validList (varSigList cs) = true
  | [], _ => rfl
  | c :: cs, hw => by
    simp only [wfVariantList, Bool.and_eq_true] at hw
    simp [varSigList, Sig.validList, wf_varSig_valid c hw.1, wf_varSig_validList cs hw.2]
end

theorem swappedPairs_keys_h : ∀ (v : Sig) (es : List (Variant × Variant)) (n : Nat),
    wfEntries (.basic 'h') v es = true →
    ∀ p ∈ swappedPairs es n, ∃ j : Nat, p.1 = .vInt (j : Int) ∧ n ≤ j
  | _, [], _, _, p, hp => by simp [swappedPairs] at hp
  | v, (a, b) :: es, n, hw, p, hp => by
    simp only [wfEntries, Bool.and_eq_true, decide_eq_true_eq] at hw
    obtain ⟨⟨⟨⟨hwa, hwb⟩, hsa⟩, hsb⟩, hwes⟩ := hw
    cases a with
    | basic c sa =>
      simp only [varSig, Sig.basic.injEq] at hsa
      subst hsa
      have hha : handlesDFS (Variant.basic 'h' sa) = [getHandle sa] := by
        simp [handlesDFS]
      rw [swappedPairs, hha] at hp
      simp only [List.length_cons, List.length_nil, List.mem_cons] at hp
      rcases hp with hp | hp
      · subst hp
        exact ⟨n, by simp [swappedNative], le_refl n⟩
      · obtain ⟨j, hj, hjn⟩ := swappedPairs_keys_h v es _ hwes p hp
        exact ⟨j, hj, by omega⟩
    | var i => simp [varSig] at hsa
    | tup cs => simp [varSig] at hsa
    | arr e cs => simp [varSig] at hsa
    | dict x y zs => simp [varSig] at hsa

theorem swappedPairs_distinct_h : ∀ (v : Sig) (es : List (Variant × Variant)) (n : Nat),
    wfEntries (.basic 'h') v es = true → distinctKeysN (swappedPairs es n) = true
  | _, [], _, _ => rfl
  | v, (a, b) :: es, n, hw => by
    simp only [wfEntries, Bool.and_eq_true, decide_eq_true_eq] at hw
    obtain ⟨⟨⟨⟨hwa, hwb⟩, hsa⟩, hsb⟩, hwes⟩ := hw
    cases a with
    | basic c sa =>
      simp only [varSig, Sig.basic.injEq] at hsa
      subst hsa
      have hkey : swappedNative (Variant.basic 'h' sa) n = Native.vInt (n : Int) := by
        simp [swappedNative]
      rw [swappedPairs, distinctKeysN, hkey]
      simp only [Bool.and_eq_true, Bool.not_eq_true']
      refine ⟨?_, swappedPairs_distinct_h v es _ hwes⟩
      simp only [List.any_eq_false, decide_eq_false_iff_not]
      intro p hp
      obtain ⟨j, hj, hjn⟩ := swappedPairs_keys_h v es _ hwes p hp
      rw [hj]
      intro hcon
      have hcon' : Native.vInt (j : Int) = Native.vInt (n : Int) := by simpa using hcon
      have hji : (j : Int) = (n : Int) := (Native.vInt.injEq _ _).mp hcon'
      have hjn' : j = n := by exact_mod_cast hji
      have hha : handlesDFS (Variant.basic 'h' sa) = [getHandle sa] := by
        simp [handlesDFS]
      rw [hha] at hjn
      simp only [List.length_cons, List.length_nil] at hjn
      omega
    | var i => simp [varSig] at hsa
    | tup cs => simp [varSig] at hsa
    | arr e cs => simp [varSig] at hsa
    | dict x y zs => simp [varSig] at hsa

theorem swappedPairs_keys_other : ∀ (c : Char), c ≠ 'h' → ∀ (v : Sig)
    (es : List (Variant × Variant)) (n : Nat) (sa : Scalar),
    wfEntries (.basic c) v es = true →
    (es.any (fun p => p.1 = Variant.basic c sa)) = false →
    ((swappedPairs es n).any (fun p => p.1 = scalarNative sa)) = false
  | _, _, _, [], _, _, _, _ => rfl
  | c, hc, v, (a, b) :: es, n, sa, hw, hany => by
    simp only [wfEntries, Bool.and_eq_true, decide_eq_true_eq] at hw
    obtain ⟨⟨⟨⟨hwa, hwb⟩, hsa⟩, hsb⟩, hwes⟩ := hw
    cases a with
    | basic c' sa' =>
      simp only [varSig, Sig.basic.injEq] at hsa
      subst hsa
      simp only [List.any_cons, Bool.or_eq_false_iff, decide_eq_false_iff_not] at hany
      obtain ⟨hne, hany⟩ := hany
      rw [swappedPairs]
      simp only [List.any_cons, Bool.or_eq_false_iff]
      constructor
      · have hkey : swappedNative (Variant.basic c' sa') n = scalarNative sa' := by
          simp [swappedNative, hc]
        rw [hkey]
        simp only [decide_eq_false_iff_not]
        intro hcon
        exact hne (by rw [scalarNative_inj hcon])
      · exact swappedPairs_keys_other c' hc v es _ sa hwes hany
    | var i => simp [varSig] at hsa
    | tup cs => simp [varSig] at hsa
    | arr e cs => simp [varSig] at hsa
    | dict x y zs => simp [varSig] at hsa

theorem swappedPairs_distinct_other : ∀ (c : Char), c ≠ 'h' → ∀ (v : Sig)
    (es : List (Variant × Variant)) (n : Nat),
    wfEntries (.basic c) v es = true → distinctKeys es = true →
    distinctKeysN (swappedPairs es n) = true
  | _, _, _, [], _, _, _ => rfl
  | c, hc, v, (a, b) :: es, n, hw, hd => by
    simp only [wfEntries, Bool.and_eq_true, decide_eq_true_eq] at hw
    obtain ⟨⟨⟨⟨hwa, hwb⟩, hsa⟩, hsb⟩, hwes⟩ := hw
    simp only [distinctKeys, Bool.and_eq_true, Bool.not_eq_true'] at hd
    obtain ⟨hdany, hdes⟩ := hd
    cases a with
    | basic c' sa' =>
      simp only [varSig, Sig.basic.injEq] at hsa
      subst hsa
      have hkey : swappedNative (Variant.basic c' sa') n = scalarNative sa' := by
        simp [swappedNative, hc]
      rw [swappedPairs, distinctKeysN, hkey]
      simp only [Bool.and_eq_true, Bool.not_eq_true']
      exact ⟨swappedPairs_keys_other c' hc v es _ sa' hwes hdany,
        swappedPairs_distinct_other c' hc v es _ hwes hdes⟩
    | var i => simp [varSig] at hsa
    | tup cs => simp [varSig] at hsa
    | arr e cs => simp [varSig] at hsa
    | dict x y zs => simp [varSig] at hsa

theorem swappedPairs_distinct (k v : Sig) (es : List (Variant × Variant)) (n : Nat)
    (hkb : k.isBasic = true) (hw : wfEntries k v es = true)
    (hd : distinctKeys es = true) : distinctKeysN (swappedPairs es n) = true := by
  cases k with
  | basic ck =>
    by_cases hc : ck = 'h'
    · subst hc
      exact swappedPairs_distinct_h v es n hw
    · exact swappedPairs_distinct_other ck hc v es n hw hd
  | var => simp [Sig.isBasic] at hkb
  | tup items => simp [Sig.isBasic] at hkb
  | arr e => simp [Sig.isBasic] at hkb
  | dict a b => simp [Sig.isBasic] at hkb

mutual
theorem mk_swapped_renumber : ∀ (v : Variant) (n : Nat), wfVariant v = true →
    mkVariant (varSig v) (swappedNative v n) = .ok (renumber v n)
  | .basic c s, n, hw => by
    simp only [wfVariant, Bool.and_eq_true, decide_eq_true_eq] at hw
    obtain ⟨hbc, hsm⟩ := hw
    by_cases hc : c = 'h'
    · subst hc
      simp [varSig, swappedNative, renumber, mkVariant, mkBasic]
    · cases s with
      | int m =>
        simp only [scalarMatches, decide_eq_true_eq] at hsm
        simp [varSig, swappedNative, renumber, mkVariant, mkBasic, hc, scalarNative, hsm]
      | str t =>
        simp only [scalarMatches] at hsm
        simp [varSig, swappedNative, renumber, mkVariant, mkBasic, hc, scalarNative, hsm]
      | bool bb =>
        simp only [scalarMatches, decide_eq_true_eq] at hsm
        simp [varSig, swappedNative, renumber, mkVariant, mkBasic, hc, scalarNative, hsm]
  | .var inner, n, _ => by
    simp [varSig, swappedNative, renumber, mkVariant]
  | .tup cs, n, hw => by
    simp only [wfVariant] at hw
    have hz := mk_swapped_renumberList cs n hw
    simp [varSig, swappedNative, renumber, mkVariant, hz]
  | .arr e cs, n, hw => by
    simp only [wfVariant, Bool.and_eq_true] at hw
    obtain ⟨⟨he, hwl⟩, hsm⟩ := hw
    have ha := mk_swapped_renumberAll e cs n hwl hsm
    simp [varSig, swappedNative, renumber, mkVariant, ha]
  | .dict k v es, n, hw => by
    simp only [wfVariant, Bool.and_eq_true] at hw
    obtain ⟨⟨⟨⟨hkb, hkv⟩, hvv⟩, hwe⟩, hdk⟩ := hw
    have hdist := swappedPairs_distinct k v es n hkb hwe hdk
    have hfold := pyFoldInsert_of_distinct (swappedPairs es n) [] hdist
      (by intro p _; simp)
    have hent := mk_swapped_renumberEntries k v es n hwe
    simp only [List.nil_append] at hfold
    simp [varSig, swappedNative, renumber, mkVariant, hkb, hfold, hent]

theorem mk_swapped_renumberList : ∀ (cs : List Variant) (n : Nat),
    wfVariantList cs = true →
    mkVariantZip (varSigList cs) (swappedNativeList cs n) = .ok (renumberList cs n)
  | [], n, _ => by simp [varSigList, swappedNativeList, renumberList, mkVariantZip]
  | c :: cs, n, hw => by
    simp only [wfVariantList, Bool.and_eq_true] at hw
    have h1 := mk_swapped_renumber c n hw.1
    have h2 := mk_swapped_renumberList cs (n + (handlesDFS c).length) hw.2
    simp [varSigList, swappedNativeList, renumberList, mkVariantZip, h1, h2]

theorem mk_swapped_renumberAll : ∀ (e : Sig) (cs : List Variant) (n : Nat),
    wfVariantList cs = true → sigsMatch e cs = true →
    mkVariantAll e (swappedNativeList cs n) = .ok (renumberList cs n)
  | e, [], n, _, _ => by simp [swappedNativeList, renumberList, mkVariantAll]
  | e, c :: cs, n, hw, hsm => by
    simp only [wfVariantList, Bool.and_eq_true] at hw
    simp only [sigsMatch, Bool.and_eq_true, decide_eq_true_eq] at hsm
    have h1 := mk_swapped_renumber c n hw.1
    rw [hsm.1] at h1
    have h2 := mk_swapped_renumberAll e cs (n + (handlesDFS c).length) hw.2 hsm.2
    simp [swappedNativeList, renumberList, mkVariantAll, h1, h2]

theorem mk_swapped_renumberEntries : ∀ (k v : Sig) (es : List (Variant × Variant)) (n : Nat),
    wfEntries k v es = true →
    mkVariantEntries k v (swappedPairs es n) = .ok (renumberEntries es n)
  | k, v, [], n, _ => by simp [swappedPairs, renumberEntries, mkVariantEntries]
  | k, v, (a, b) :: es, n, hw => by
    simp only [wfEntries, Bool.and_eq_true, decide_eq_true_eq] at hw
    obtain ⟨⟨⟨⟨hwa, hwb⟩, hsa⟩, hsb⟩, hwes⟩ := hw
    have h1 := mk_swapped_renumber a n hwa
    rw [hsa] at h1
    have h2 := mk_swapped_renumber b (n + (handlesDFS a).length) hwb
    rw [hsb] at h2
    have h3 := mk_swapped_renumberEntries k v es
      (n + (handlesDFS a).length + (handlesDFS b).length) hwes
    simp [swappedPairs, renumberEntries, mkVariantEntries, h1, h2, h3]
end

mutual
theorem swapProcess_outbound : ∀ (v : Variant), wfVariant v = true → ∀ (st : List Int),
    swapProcess getIndexSwap v st = .ok (swappedNative v st.length, st ++ handlesDFS v)
  | .basic c s, hw, st => by
    by_cases hc : c = 'h'
    · subst hc
      simp [swapProcess, getIndexSwap, swappedNative, handlesDFS]
    · simp [swapProcess, getIndexSwap, swappedNative, handlesDFS, hc]
  | .var inner, hw, st => by
    simp only [wfVariant] at hw
    by_cases hfree : hvFree (varSig inner).chars = true
    · obtain ⟨hh, hv⟩ := (hvFree_iff _).mp hfree
      obtain ⟨h1, h2⟩ := hvFree_handles inner hw hh hv
      simp [swapProcess, hfree, swappedNative, handlesDFS, h1, h2]
    · have hrec := swapProcess_outbound inner hw st
      have hts : parseSigStr (getTypeString inner) = some (varSig inner) := by
        unfold getTypeString
        exact parseSigStr_chars _ (wf_varSig_valid inner hw)
      have hmk := mk_swapped_renumber inner st.length hw
      simp only [Bool.not_eq_true] at hfree
      simp [swapProcess, hfree, hrec, mkVariantStr, hts, hmk, swappedNative, handlesDFS]
  | .tup cs, hw, st => by
    simp only [wfVariant] at hw
    have hrec := swapProcess_outboundList cs hw st
    simp [swapProcess, hrec, swappedNative, handlesDFS]
  | .arr e cs, hw, st => by
    simp only [wfVariant, Bool.and_eq_true] at hw
    have hrec := swapProcess_outboundList cs hw.1.2 st
    simp [swapProcess, hrec, swappedNative, handlesDFS]
  | .dict k v es, hw, st => by
    simp only [wfVariant, Bool.and_eq_true] at hw
    have hrec := swapProcess_outboundDict k v es hw.1.2 [] st
    simp [swapProcess, hrec, swappedNative, handlesDFS]

theorem swapProcess_outboundList : ∀ (cs : List Variant), wfVariantList cs = true →
    ∀ (st : List Int), swapProcessList getIndexSwap cs st =
      .ok (swappedNativeList cs st.length, st ++ handlesDFSList cs)
  | [], _, st => by simp [swapProcessList, swappedNativeList, handlesDFSList]
  | c :: cs, hw, st => by
    simp only [wfVariantList, Bool.and_eq_true] at hw
    have h1 := swapProcess_outbound c hw.1 st
    have h2 := swapProcess_outboundList cs hw.2 (st ++ handlesDFS c)
    simp only [List.length_append] at h2
    simp [swapProcessList, h1, h2, swappedNativeList, handlesDFSList, List.append_assoc]

theorem swapProcess_outboundDict : ∀ (k v : Sig) (es : List (Variant × Variant)),
    wfEntries k v es = true → ∀ (acc : List (Native × Native)) (st : List Int),
    swapProcessDict getIndexSwap es acc st =
      .ok (pyFoldInsert acc (swappedPairs es st.length), st ++ handlesDFSEntries es)
  | _, _, [], _, acc, st => by
    simp [swapProcessDict, swappedPairs, pyFoldInsert, handlesDFSEntries]
  | k, v, (a, b) :: es, hw, acc, st => by
    simp only [wfEntries, Bool.and_eq_true, decide_eq_true_eq] at hw
    obtain ⟨⟨⟨⟨hwa, hwb⟩, hsa⟩, hsb⟩, hwes⟩ := hw
    have h1 := swapProcess_outbound a hwa st
    have h2 := swapProcess_outbound b hwb (st ++ handlesDFS a)
    have h3 := swapProcess_outboundDict k v es hwes
      (pyInsert acc (swappedNative a st.length)
        (swappedNative b (st.length + (handlesDFS a).length)))
      ((st ++ handlesDFS a) ++ handlesDFS b)
    simp only [List.length_append, List.append_assoc] at h2 h3
    simp [swapProcessDict, h1, h2, h3, swappedPairs, pyFoldInsert,
      handlesDFSEntries, List.append_assoc]
    rw [Nat.add_assoc]
end

theorem swapRecreate_outbound (v : Variant) (hw : wfVariant v = true) (st : List Int) :
    swapRecreate getIndexSwap v st = .ok (renumber v st.length, st ++ handlesDFS v) := by
  by_cases hfree : hvFree (varSig v).chars = true
  · obtain ⟨hh, hv⟩ := (hvFree_iff _).mp hfree
    obtain ⟨h1, h2⟩ := hvFree_handles v hw hh hv
    simp [swapRecreate, hfree, h1, h2]
  · have hrec := swapProcess_outbound v hw st
    have hts : parseSigStr (getTypeString v) = some (varSig v) := by
      unfold getTypeString
      exact parseSigStr_chars _ (wf_varSig_valid v hw)
    have hmk := mk_swapped_renumber v st.length hw
    simp only [Bool.not_eq_true] at hfree
    simp [swapRecreate, hfree, hrec, mkVariantStr, hts, hmk]

/-- Python `"".join(items)`: concatenation of a list of strings in
order. -/
def concatStrings : List String → String
  | [] => ""
  | t :: ts => t ++ concatStrings ts

theorem getDBusRepresentationList_eq : ∀ (args : List TypeHint) (ss : List String),
    args.mapM get_dbus_type = .ok ss →
    getDBusRepresentationList args = .ok (concatStrings ss)
  | [], ss, h => by
    simp only [List.mapM_nil, pure] at h
    cases h
    rfl
  | t :: ts, ss, h => by
    rw [List.mapM_cons] at h
    cases hx : get_dbus_type t with
    | ok x =>
      rw [hx] at h
      cases hxs : ts.mapM get_dbus_type with
      | ok xs =>
        rw [hxs] at h
        simp only [bind, Except.bind, pure, Except.pure] at h
        cases h
        have := getDBusRepresentationList_eq ts xs hxs
        simp [getDBusRepresentationList, get_dbus_type] at hx
        simp [getDBusRepresentationList, hx, this, concatStrings]
      | error e =>
        rw [hxs] at h
        simp [bind, Except.bind] at h
    | error e =>
      rw [hx] at h
      simp [bind, Except.bind] at h

/-- C1: for every variant whose type string contains neither `h` nor
`v`, `UnixFDSwap.apply` returns the original variant unchanged with the
swap state untouched, for an arbitrary swapping function and state and
regardless of how deeply the variant is nested. -/
theorem claim_C1_short_circuit {σ : Type} (f : SwapFn σ) (v : Variant) (st : σ)
    (hh : 'h' ∉ (getTypeString v).toList) (hv : 'v' ∉ (getTypeString v).toList) :
    UnixFDSwap_apply f v st = .ok (v, st) := by
  have htl : (getTypeString v).toList = (varSig v).chars := rfl
  rw [htl] at hh hv
  have hfree : hvFree (varSig v).chars = true := (hvFree_iff _).mpr ⟨hh, hv⟩
  simp [UnixFDSwap_apply, swapRecreate, hfree]

/-- Witness for C1 at a deeply nested handle-free variant. -/
theorem claim_C1_short_circuit_witness :
    ('h' ∉ (getTypeString (Variant.tup
        [.arr (.basic 'i') [.basic 'i' (.int 1), .basic 'i' (.int 2)],
         .dict (.basic 's') (.tup [.basic 'b'])
           [(.basic 's' (.str "k"), .tup [.basic 'b' (.bool true)])]])).toList ∧
     'v' ∉ (getTypeString (Variant.tup
        [.arr (.basic 'i') [.basic 'i' (.int 1), .basic 'i' (.int 2)],
         .dict (.basic 's') (.tup [.basic 'b'])
           [(.basic 's' (.str "k"), .tup [.basic 'b' (.bool true)])]])).toList) ∧
    UnixFDSwap_apply getIndexSwap (Variant.tup
        [.arr (.basic 'i') [.basic 'i' (.int 1), .basic 'i' (.int 2)],
         .dict (.basic 's') (.tup [.basic 'b'])
           [(.basic 's' (.str "k"), .tup [.basic 'b' (.bool true)])]]) [] =
      .ok (Variant.tup
        [.arr (.basic 'i') [.basic 'i' (.int 1), .basic 'i' (.int 2)],
         .dict (.basic 's') (.tup [.basic 'b'])
           [(.basic 's' (.str "k"), .tup [.basic 'b' (.bool true)])]], []) :=
  ⟨⟨by decide, by decide⟩,
    claim_C1_short_circuit getIndexSwap _ [] (by decide) (by decide)⟩

/-- C2: on a variant of signature `(hsh)` with handle values `h1`, `h2`,
the outbound substitution yields the variant with the handles replaced
by indices `0` and `1` together with the fdlist `[h1, h2]`; feeding the
result and that fdlist to the inbound substitution restores the original
variant; and both variants have type string `(hsh)`. -/
theorem claim_C2_handle_roundtrip (h1 h2 : Int) (s0 : String) :
    variant_replace_handles_with_fdlist_indices
      (.tup [.basic 'h' (.int h1), .basic 's' (.str s0), .basic 'h' (.int h2)]) none =
      .ok (.tup [.basic 'h' (.int 0), .basic 's' (.str s0), .basic 'h' (.int 1)],
        [h1, h2]) ∧
    variant_replace_fdlist_indices_with_handles
      (.tup [.basic 'h' (.int 0), .basic 's' (.str s0), .basic 'h' (.int 1)])
      [h1, h2] =
      .ok (.tup [.basic 'h' (.int h1), .basic 's' (.str s0), .basic 'h' (.int h2)]) ∧
    getTypeString
      (.tup [.basic 'h' (.int h1), .basic 's' (.str s0), .basic 'h' (.int h2)]) =
      "(hsh)" ∧
    getTypeString
      (.tup [.basic 'h' (.int 0), .basic 's' (.str s0), .basic 'h' (.int 1)]) =
      "(hsh)" :=
  ⟨rfl, rfl, rfl, rfl⟩

/-- C3: each of the fourteen scalar type hints compiles to its fixed
single-character wire code; in particular the default integer `Int` and
the explicit `Int32` both compile to `"i"`. -/
theorem claim_C3_scalar_codes :
    get_dbus_type .bool = .ok "b" ∧
    get_dbus_type .str = .ok "s" ∧
    get_dbus_type .double = .ok "d" ∧
    get_dbus_type .int = .ok "i" ∧
    get_dbus_type .byte = .ok "y" ∧
    get_dbus_type .int16 = .ok "n" ∧
    get_dbus_type .uint16 = .ok "q" ∧
    get_dbus_type .int32 = .ok "i" ∧
    get_dbus_type .uint32 = .ok "u" ∧
    get_dbus_type .int64 = .ok "x" ∧
    get_dbus_type .uint64 = .ok "t" ∧
    get_dbus_type .unixfd = .ok "h" ∧
    get_dbus_type .objpath = .ok "o" ∧
    get_dbus_type .variant = .ok "v" :=
  ⟨rfl, rfl, rfl, rfl, rfl, rfl, rfl, rfl, rfl, rfl, rfl, rfl, rfl, rfl⟩

/-- C4: the compiler produces `(..)` around the concatenated,
recursively compiled tuple arguments in declared order, `a` before the
compiled list element, and `a{..}` around the compiled key and value of
a dictionary with a non-container non-Variant key; concretely
`Tuple[Str, Int32]` compiles to `(si)`, `List[Byte]` to `ay` and
`Dict[Str, List[Int32]]` to `a{sai}`. -/
theorem claim_C4_composite_compilation :
    (∀ (args : List TypeHint) (ss : List String),
       args.mapM get_dbus_type = .ok ss →
       get_dbus_type (.tuple args) = .ok ("(" ++ concatStrings ss ++ ")")) ∧
    (∀ (t : TypeHint) (s : String), get_dbus_type t = .ok s →
       get_dbus_type (.list t) = .ok ("a" ++ s)) ∧
    (∀ (k v : TypeHint) (ks vs : String),
       isContainerType k = false → isVariantHint k = false →
       get_dbus_type k = .ok ks → get_dbus_type v = .ok vs →
       get_dbus_type (.dict k v) = .ok ("a\x7b" ++ ks ++ vs ++ "\x7d")) ∧
    get_dbus_type (.tuple [.str, .int32]) = .ok "(si)" ∧
    get_dbus_type (.list .byte) = .ok "ay" ∧
    get_dbus_type (.dict .str (.list .int32)) = .ok "a{sai}" := by
  refine ⟨?_, ?_, ?_, rfl, rfl, rfl⟩
  · intro args ss h
    have := getDBusRepresentationList_eq args ss h
    simp [get_dbus_type, getDBusRepresentation, basicTypeMapping, this]
  · intro t s h
    simp only [get_dbus_type] at h
    simp [get_dbus_type, getDBusRepresentation, basicTypeMapping, h]
  · intro k v ks vs hck hvk hk hv
    simp only [get_dbus_type] at hk hv
    simp [get_dbus_type, getDBusRepresentation, basicTypeMapping, hck, hvk, hk, hv]

/-- Witness for C4 discharging the hypotheses at `Tuple[Str, Int32]`,
`List[Byte]` and `Dict[Str, List[Int32]]`. -/
theorem claim_C4_composite_compilation_witness :
    ([TypeHint.str, TypeHint.int32].mapM get_dbus_type = .ok ["s", "i"] ∧
       get_dbus_type (.tuple [.str, .int32]) =
         .ok ("(" ++ concatStrings ["s", "i"] ++ ")")) ∧
    (get_dbus_type .byte = .ok "y" ∧ get_dbus_type (.list .byte) = .ok ("a" ++ "y")) ∧
    (isContainerType .str = false ∧ isVariantHint .str = false ∧
      get_dbus_type .str = .ok "s" ∧ get_dbus_type (.list .int32) = .ok "ai" ∧
      get_dbus_type (.dict .str (.list .int32)) = .ok ("a\x7b" ++ "s" ++ "ai" ++ "\x7d")) :=
  ⟨⟨by rfl, claim_C4_composite_compilation.1 [.str, .int32] ["s", "i"] (by rfl)⟩,
   ⟨by rfl, claim_C4_composite_compilation.2.1 .byte "y" (by rfl)⟩,
   ⟨by rfl, by rfl, by rfl, by rfl,
     claim_C4_composite_compilation.2.2.1 .str (.list .int32) "s" "ai"
       (by rfl) (by rfl) (by rfl) (by rfl)⟩⟩

/-- C5: the compiler rejects every dictionary whose declared key is a
container hint (tuple, list or dictionary) or the `Variant` hint, with
the unsupported-type error; in particular `Dict[List[Int32], Str]` and
`Dict[Variant, Str]` are rejected. -/
theorem claim_C5_dict_key_rejection :
    (∀ k v : TypeHint, (isContainerType k = true ∨ k = .variant) →
       get_dbus_type (.dict k v) = .error .unsupportedType) ∧
    get_dbus_type (.dict (.list .int32) .str) = .error .unsupportedType ∧
    get_dbus_type (.dict .variant .str) = .error .unsupportedType := by
  refine ⟨?_, rfl, rfl⟩
  intro k v h
  rcases h with h | h
  · simp [get_dbus_type, getDBusRepresentation, h]
  · subst h
    rfl

/-- Witness for C5 at `Dict[List[Int32], Str]`. -/
theorem claim_C5_dict_key_rejection_witness :
    (isContainerType (.list .int32) = true ∨ TypeHint.list .int32 = .variant) ∧
    get_dbus_type (.dict (.list .int32) .str) = .error .unsupportedType :=
  ⟨Or.inl rfl, claim_C5_dict_key_rejection.1 (.list .int32) .str (Or.inl rfl)⟩

/-- C6: on a wrapper-of-wrapper-of-Int32(7), `unwrap_variant` strips
exactly one wrapper layer — it returns the immediately contained
variant, which still has type string `v` and still wraps Int32(7) —
while the full unpacker returns the bare integer 7. -/
theorem claim_C6_shallow_vs_full_unwrap :
    unwrap_variant (.var (.var (.basic 'i' (.int 7)))) =
      .vVariant (.var (.basic 'i' (.int 7))) ∧
    getTypeString (.var (.basic 'i' (.int 7))) = "v" ∧
    unpackVariant (.var (.var (.basic 'i' (.int 7)))) = .vInt 7 :=
  ⟨rfl, rfl, rfl⟩

/-- C7: fully unpacking a variant built by `get_variant` from a fully
native value (no embedded variants, dictionaries duplicate-free, as any
value made of Python tuples/lists/dicts/scalars is) returns a value
structurally equal to the original, preserving element order; and the
dictionary decoder keeps each key once with the latest value winning, as
shown on a wire dictionary carrying a duplicated key. -/
theorem claim_C7_unpack_roundtrip :
    (∀ (sig : Sig) (v : Native) (w : Variant), sig.valid = true →
       get_variant_str (String.mk sig.chars) (some v) = .ok w →
       variantFreeN v = true → nodupDictsN v = true →
       unpackVariant w = v) ∧
    unpackVariant (.dict (.basic 's') (.basic 'i')
        [(.basic 's' (.str "k"), .basic 'i' (.int 1)),
         (.basic 's' (.str "k"), .basic 'i' (.int 2))]) =
      .vDict [(.vStr "k", .vInt 2)] := by
  refine ⟨?_, rfl⟩
  intro sig v w hvalid h hf hd
  rw [get_variant_str, mkVariantStr, parseSigStr_chars sig hvalid] at h
  exact unpack_mkVariant sig v w h hf hd

/-- Witness for C7 at signature `(i)` and native value `(5,)`. -/
theorem claim_C7_unpack_roundtrip_witness :
    ((Sig.tup [.basic 'i']).valid = true ∧
     get_variant_str (String.mk (Sig.tup [.basic 'i']).chars)
        (some (.vTuple [.vInt 5])) = .ok (.tup [.basic 'i' (.int 5)]) ∧
     variantFreeN (.vTuple [.vInt 5]) = true ∧
     nodupDictsN (.vTuple [.vInt 5]) = true) ∧
    unpackVariant (.tup [.basic 'i' (.int 5)]) = .vTuple [.vInt 5] :=
  ⟨⟨by decide, by rfl, by rfl, by rfl⟩,
    claim_C7_unpack_roundtrip.1 (Sig.tup [.basic 'i']) (.vTuple [.vInt 5])
      (.tup [.basic 'i' (.int 5)]) (by decide) (by rfl) (by rfl) (by rfl)⟩

/-- C8: `get_variant` fails with the invalid-value error whenever the
supplied value is `None` — for every type string, and for every type
hint that compiles — and succeeds on any non-`None` value that matches
the signature. -/
theorem claim_C8_none_rejected :
    (∀ ts : String, get_variant_str ts none = .error .invalidValue) ∧
    (∀ (t : TypeHint) (ts : String), get_dbus_type t = .ok ts →
       get_variant_hint t none = .error .invalidValue) ∧
    (∀ (sig : Sig) (v : Native), sig.valid = true → matchesSig sig v = true →
       ∃ w, get_variant_str (String.mk sig.chars) (some v) = .ok w) := by
  refine ⟨fun ts => rfl, ?_, ?_⟩
  · intro t ts h
    simp [get_variant_hint, h, get_variant_str]
  · intro sig v hvalid hm
    have hok := mkVariant_isOk sig v hm
    rw [get_variant_str, mkVariantStr, parseSigStr_chars sig hvalid]
    cases h : mkVariant sig v with
    | ok w => exact ⟨w, by simp [h]⟩
    | error e => rw [h] at hok; simp [Except.isOk, Except.toBool] at hok

/-- Witness for C8: `None` rejected under the hint `Int32`; a matching
integer accepted under signature `i`. -/
theorem claim_C8_none_rejected_witness :
    (get_dbus_type .int32 = .ok "i" ∧
      get_variant_hint .int32 none = .error .invalidValue) ∧
    ((Sig.basic 'i').valid = true ∧ matchesSig (.basic 'i') (.vInt 3) = true ∧
      ∃ w, get_variant_str (String.mk (Sig.basic 'i').chars) (some (.vInt 3)) = .ok w) :=
  ⟨⟨by rfl, claim_C8_none_rejected.2.1 .int32 "i" (by rfl)⟩,
   ⟨by decide, by decide,
     claim_C8_none_rejected.2.2 (.basic 'i') (.vInt 3) (by decide) (by decide)⟩⟩

/-- C9: `is_tuple_of_one` on a parsable type string is true exactly when
the string denotes a tuple type of arity one; in particular it is true
for `(s)` and false for `(ss)`, `s` and `()`. -/
theorem claim_C9_tuple_of_one :
    (∀ (ts : String) (sig : Sig), parseSigStr ts = some sig →
       (is_tuple_of_one_str ts = .ok true ↔ ∃ x, sig = .tup [x])) ∧
    is_tuple_of_one_str "(s)" = .ok true ∧
    is_tuple_of_one_str "(ss)" = .ok false ∧
    is_tuple_of_one_str "s" = .ok false ∧
    is_tuple_of_one_str "()" = .ok false := by
  refine ⟨?_, rfl, rfl, rfl, rfl⟩
  intro ts sig h
  rw [is_tuple_of_one_str, get_variant_type_str, h]
  cases sig with
  | tup xs =>
    simp only [Sig.isTuple, Sig.nItems, Bool.true_and, Except.ok.injEq]
    constructor
    · intro hx
      have : xs.length = 1 := by simpa using hx
      obtain ⟨x, hx⟩ := List.length_eq_one.mp this
      exact ⟨x, by rw [hx]⟩
    · rintro ⟨x, hx⟩
      have hxs : xs = [x] := by injection hx
      subst hxs
      simp
  | basic c => simp [Sig.isTuple]
  | var => simp [Sig.isTuple]
  | arr e => simp [Sig.isTuple]
  | dict k v => simp [Sig.isTuple]

/-- Witness for C9 applying the characterisation at `(s)`. -/
theorem claim_C9_tuple_of_one_witness :
    parseSigStr "(s)" = some (.tup [.basic 's']) ∧
    (is_tuple_of_one_str "(s)" = .ok true ↔ ∃ x, Sig.tup [.basic 's'] = .tup [x]) :=
  ⟨rfl, claim_C9_tuple_of_one.1 "(s)" (.tup [.basic 's']) rfl⟩

/-- C10: on every well-formed variant, the outbound helper called with
`fdlist=None` starts a fresh empty list, returns the out-of-band list of
the handle values in depth-first encounter order, and returns the
variant with the i-th handle leaf (in that same order) replaced by index
`i`, counting from `0` (`renumber v 0`). -/
theorem claim_C10_outbound_substitution (v : Variant) (hw : wfVariant v = true) :
    variant_replace_handles_with_fdlist_indices v none =
      .ok (renumber v 0, handlesDFS v) := by
  have h := swapRecreate_outbound v hw []
  simpa [variant_replace_handles_with_fdlist_indices, UnixFDSwap_apply] using h

/-- Witness for C10 at a variant with two handles, one under a wrapper. -/
theorem claim_C10_outbound_substitution_witness :
    wfVariant (.tup [.basic 'h' (.int 5), .var (.basic 'h' (.int 9))]) = true ∧
    variant_replace_handles_with_fdlist_indices
        (.tup [.basic 'h' (.int 5), .var (.basic 'h' (.int 9))]) none =
      .ok (.tup [.basic 'h' (.int 0), .var (.basic 'h' (.int 1))], [5, 9]) :=
  ⟨by decide,
    (claim_C10_outbound_substitution
      (.tup [.basic 'h' (.int 5), .var (.basic 'h' (.int 9))]) (by decide)).trans
      (by rfl)⟩

end Dasbus






